import Mathlib

/-!
# Baker: argument parsing and dispatch, shallowly embedded

This file embeds the argument-parsing and dispatch core of `baker.py`
(`totype`, `Baker.parse_args`, `Baker.parse`, `Baker.apply`) as executable
Lean definitions, and proves theorems about the embedding.

Python values flowing through the parser are modelled by `Value`
(strings, ints, bools and `None`; `float` defaults are outside the
fragment exercised here).  Python dicts that the parser builds and
consumes (`kwargs`, `cmd.keywords`, `cmd.shortopts`) are modelled as
association lists with first-match lookup, replace-in-place insertion
and first-occurrence deletion, matching insertion-ordered dict
semantics.  Python exceptions are modelled by an error type that keeps
`CommandError` (structured, with its message) distinct from the bare
`AssertionError`, `IndexError` and `KeyError` that some code paths can
raise.
-/

namespace Baker

/-- A Python scalar value as it appears in the parsing core:
a string token, an `int`, a `bool`, or `None`. -/
inductive Value where
  | str (s : String)
  | int (n : Int)
  | bool (b : Bool)
  | none
deriving DecidableEq, Repr

/-- `kwargs` / `keywords`: an insertion-ordered string-keyed mapping. -/
abbrev KW := List (String × Value)

/-- Dict lookup: first binding of the key, if any. -/
def kwLookup (m : KW) (k : String) : Option Value :=
  match m with
  | [] => Option.none
  | (k', v) :: t => if k' = k then some v else kwLookup t k

/-- Dict assignment `m[k] = v`: replace the binding in place if the key is
present, else append it (insertion order preserved). -/
def kwInsert (m : KW) (k : String) (v : Value) : KW :=
  match m with
  | [] => [(k, v)]
  | (k', v') :: t => if k' = k then (k, v) :: t else (k', v') :: kwInsert t k v

/-- Dict deletion `del m[k]`: remove the first binding of the key. -/
def kwErase (m : KW) (k : String) : KW :=
  match m with
  | [] => []
  | (k', v') :: t => if k' = k then t else (k', v') :: kwErase t k

/-- The static shape of a registered command, as stored in the `Cmd`
namedtuple by `Baker.command` (documentation fields omitted: they are not
load-bearing for parsing). -/
structure Cmd where
  name : String
  argnames : List String
  keywords : KW
  shortopts : List (String × Char)
  has_varargs : Bool
  has_kwargs : Bool
deriving DecidableEq, Repr

/-- The reverse short-option mapping built at the top of `parse_args`:
`dict((v, k) for k, v in shortopts.items())`.  A later duplicate character
overwrites an earlier one, hence the reversed search. -/
def shortchars (cmd : Cmd) (c : Char) : Option String :=
  (cmd.shortopts.reverse.find? (fun p => p.2 = c)).map (·.1)

/-- `str.lower()` restricted to ASCII (all tokens in this development are
ASCII). -/
def pyLower (s : String) : String :=
  String.mk (s.data.map Char.toLower)

/-- Is this character one of the decimal digits accepted by `int()`? -/
def isPyDigit (c : Char) : Bool :=
  decide ('0' ≤ c) && decide (c ≤ '9')

/-- Digits to the natural number they denote in base 10. -/
def digitsToNat (ds : List Char) : Nat :=
  ds.foldl (fun acc c => acc * 10 + (c.toNat - '0'.toNat)) 0

/-- Python `int(s)` on a string: surrounding whitespace is stripped, an
optional single sign is allowed, and the remainder must be a nonempty run
of decimal digits; anything else raises `ValueError` (modelled as `none`).
(Digit-group underscores are not modelled; no token here uses them.) -/
def pyInt (s : String) : Option Int :=
  let t := ((s.data.dropWhile Char.isWhitespace).reverse.dropWhile
    Char.isWhitespace).reverse
  let signed : Bool × List Char :=
    match t with
    | '+' :: r => (false, r)
    | '-' :: r => (true, r)
    | r => (false, r)
  if signed.2 ≠ [] ∧ signed.2.all isPyDigit then
    let n : Int := Int.ofNat (digitsToNat signed.2)
    some (if signed.1 then -n else n)
  else
    Option.none

/-- `totype(v, default)`: convert `v` to the type of `default`.

The `bool` branch lower-cases the token and maps the fixed word lists;
any other token raises (`TypeError`, modelled as `.error ()`).  The `int`
branch is Python `int(v)`: note `int(True) == 1` and `int(False) == 0`,
which is reachable because `parse_args` substitutes the value `True`
when a non-boolean long option has no value token available.  Any other
reference type (string or `None`) passes `v` through unchanged. -/
def totype (v : Value) (default : Value) : Except Unit Value :=
  match default with
  | .bool _ =>
    match v with
    | .str s =>
      let lv := pyLower s
      if lv = "true" ∨ lv = "yes" ∨ lv = "on" ∨ lv = "1" then .ok (.bool true)
      else if lv = "false" ∨ lv = "no" ∨ lv = "off" ∨ lv = "0" then
        .ok (.bool false)
      else .error ()
    | _ => .error ()
  | .int _ =>
    match v with
    | .str s =>
      match pyInt s with
      | some n => .ok (.int n)
      | Option.none => .error ()
    | .bool b => .ok (.int (if b then 1 else 0))
    | .int n => .ok (.int n)
    | .none => .error ()
  | _ => .ok v

/-- The Python exceptions the parsing core can raise.  `CommandError`
carries its message; the other three are the bare built-in exceptions
escaping from `assert`, `argv.pop(0)` on an empty list, and
`keywords[name]` on a missing key. -/
inductive PErr where
  | commandError (msg : String)
  | assertionError
  | indexError
  | keyError
deriving DecidableEq, Repr

/-- Render of `type(default)` as Python prints it, used in the
`type_error` message. -/
def pyTypeName (v : Value) : String :=
  match v with
  | .str _ => "<class 'str'>"
  | .int _ => "<class 'int'>"
  | .bool _ => "<class 'bool'>"
  | .none => "<class 'NoneType'>"

/-- `repr` of a parser value, used in `%r` message interpolation. -/
def pyRepr (v : Value) : String :=
  match v with
  | .str s => "'" ++ s ++ "'"
  | .int n => toString n
  | .bool b => if b then "True" else "False"
  | .none => "None"

/-- The message built by `parse_args.type_error`. -/
def typeErrMsg (name : String) (value default : Value) : String :=
  name ++ " value " ++ pyRepr value ++ " must be " ++ pyTypeName default

/-- The two long-option coercion sites: `value = totype(value, default)`
inside `try`, then `kwargs[name] = value` unconditionally.  On a coercion
failure `type_error` either raises `CommandError` (normal mode) or does
nothing (lenient/test mode), in which case the raw pre-coercion value is
what gets stored. -/
def coerceStore (test : Bool) (name : String) (v default : Value)
    (kwargs : KW) : Except PErr KW :=
  match totype v default with
  | .ok w => .ok (kwInsert kwargs name w)
  | .error _ =>
    if test then .ok (kwInsert kwargs name v)
    else .error (.commandError (typeErrMsg name v default))

/-- The short-option coercion site: `kwargs[name] = totype(value, default)`
inside `try`.  On a coercion failure the assignment never happens, so in
lenient/test mode the keyword map is left unchanged. -/
def coerceStoreShort (test : Bool) (name : String) (v default : Value)
    (kwargs : KW) : Except PErr KW :=
  match totype v default with
  | .ok w => .ok (kwInsert kwargs name w)
  | .error _ =>
    if test then .ok kwargs
    else .error (.commandError (typeErrMsg name v default))

/-- `value.strip('\'"')`: remove every leading and every trailing
character that is a quote (single or double); the removed quotes need not
match or pair up. -/
def isQuoteChar (c : Char) : Bool :=
  c = '\'' || c = '"'

/-- See `isQuoteChar`; this is Python `str.strip` with a character set. -/
def stripQuotes (s : String) : String :=
  String.mk (((s.data.dropWhile isQuoteChar).reverse.dropWhile
    isQuoteChar).reverse)

/-- How the `while argv` loop classifies one popped token, in the source's
branch order: `== "--"`, `== "-"`, `startswith("--")`,
`startswith("-") and cmd.shortopts`, else bare. -/
inductive TokKind where
  | ddash
  | sdash
  | longopt (rest : List Char)
  | shortopt (rest : List Char)
  | bare
deriving DecidableEq, Repr

/-- Token classification; `rest` is the token without its dash prefix
(for long options, without the leading `--`; for short clusters, without
the leading `-`).  A token starting with `-` is a short cluster only when
the command declares short options (`cmd.shortopts` truthy), otherwise it
falls through to the bare-token branch, exactly as in the source's
`elif` chain. -/
def classify (cmd : Cmd) (arg : String) : TokKind :=
  if arg.data = ['-', '-'] then .ddash
  else if arg.data = ['-'] then .sdash
  else if arg.data.take 2 = ['-', '-'] then .longopt (arg.data.drop 2)
  else if arg.data.take 1 = ['-'] ∧ cmd.shortopts ≠ [] then
    .shortopt (arg.data.drop 1)
  else .bare

/-- Result of walking a short-option cluster's characters
(`for i in range(1, len(arg))`).  `done`: the scan fell off the end (every
remaining character was an unknown short char or a boolean option).
`needsValue`: a value-taking option was the last character, so the next
queue token must be popped.  `valueFromCluster`: a value-taking option had
trailing characters, which are its value.  `keyErr`: a short char mapped
to a name absent from `keywords` (`keywords[name]` raises `KeyError`). -/
inductive ShortRes where
  | done (kw : KW)
  | needsValue (name : String) (default : Value) (kw : KW)
  | valueFromCluster (name : String) (default : Value) (v : String) (kw : KW)
  | keyErr
deriving DecidableEq, Repr

/-- Walk the characters of a short-option cluster. -/
def shortScan (cmd : Cmd) : List Char → KW → ShortRes
  | [], kw => .done kw
  | c :: cs, kw =>
    match shortchars cmd c with
    | Option.none => shortScan cmd cs kw
    | some name =>
      match kwLookup cmd.keywords name with
      | Option.none => .keyErr
      | some default =>
        match default with
        | .bool b => shortScan cmd cs (kwInsert kw name (.bool !b))
        | _ =>
          if cs.isEmpty then .needsValue name default kw
          else .valueFromCluster name default (String.mk cs) kw

/-- Does the token start with `-` (Python `startswith("-")`)? -/
def startsWithDash (s : String) : Bool :=
  match s.data with
  | '-' :: _ => true
  | _ => false

/-- The `while argv` loop of `Baker.parse_args`, one constructor-faithful
step per popped token.  `vargs`/`kwargs` are the accumulators; `ddc` and
`sdc` are `doubledashcnt` and `singledashcnt`. -/
def parseArgsLoop (cmd : Cmd) (test : Bool) :
    List String → List String → KW → Nat → Nat → Except PErr (List String × KW)
  | [], vargs, kwargs, _, _ => .ok (vargs, kwargs)
  | arg :: argv, vargs, kwargs, ddc, sdc =>
    match classify cmd arg with
    | .ddash =>
      -- assert doubledashcnt == 1, then vargs.extend(argv); break
      if ddc + 1 = 1 then .ok (vargs ++ argv, kwargs) else .error .assertionError
    | .sdash =>
      -- assert singledashcnt == 1, then vargs.append('-')
      if sdc + 1 = 1 then
        parseArgsLoop cmd test argv (vargs ++ ["-"]) kwargs ddc (sdc + 1)
      else .error .assertionError
    | .longopt rest =>
      if rest.contains '=' then
        -- --keyword=value: split on the first '=', strip quote characters
        let name := String.mk (rest.takeWhile (fun c => c ≠ '='))
        let val := stripQuotes (String.mk ((rest.dropWhile (fun c => c ≠ '=')).drop 1))
        let default := (kwLookup cmd.keywords name).getD .none
        match coerceStore test name (.str val) default kwargs with
        | .ok kw2 => parseArgsLoop cmd test argv vargs kw2 ddc sdc
        | .error e => .error e
      else
        let name := String.mk rest
        let default := (kwLookup cmd.keywords name).getD .none
        match default with
        | .bool b =>
          -- boolean option: store the negated default, consume nothing
          parseArgsLoop cmd test argv vargs (kwInsert kwargs name (.bool !b)) ddc sdc
        | _ =>
          match argv with
          | [] =>
            -- no value available: use True, assuming this is a flag
            match coerceStore test name (.bool true) default kwargs with
            | .ok kw2 => parseArgsLoop cmd test [] vargs kw2 ddc sdc
            | .error e => .error e
          | a :: argv2 =>
            if startsWithDash a then
              match coerceStore test name (.bool true) default kwargs with
              | .ok kw2 => parseArgsLoop cmd test (a :: argv2) vargs kw2 ddc sdc
              | .error e => .error e
            else
              -- the next item in the argument list is the value
              match coerceStore test name (.str a) default kwargs with
              | .ok kw2 => parseArgsLoop cmd test argv2 vargs kw2 ddc sdc
              | .error e => .error e
    | .shortopt rest =>
      match shortScan cmd rest kwargs with
      | .keyErr => .error .keyError
      | .done kw2 => parseArgsLoop cmd test argv vargs kw2 ddc sdc
      | .valueFromCluster name default v kw2 =>
        match coerceStoreShort test name (.str v) default kw2 with
        | .ok kw3 => parseArgsLoop cmd test argv vargs kw3 ddc sdc
        | .error e => .error e
      | .needsValue name default kw2 =>
        match argv with
        | [] => .error .indexError   -- argv.pop(0) on an empty queue
        | a :: argv2 =>
          match coerceStoreShort test name (.str a) default kw2 with
          | .ok kw3 => parseArgsLoop cmd test argv2 vargs kw3 ddc sdc
          | .error e => .error e
    | .bare =>
      parseArgsLoop cmd test argv (vargs ++ [arg]) kwargs ddc sdc

/-- `Baker.parse_args(scriptname, cmd, argv, test)`, minus the unused
scriptname. -/
def parseArgs (cmd : Cmd) (test : Bool) (argv : List String) :
    Except PErr (List String × KW) :=
  parseArgsLoop cmd test argv [] [] 0 0

instance instDecEqExcept {ε α : Type} [DecidableEq ε] [DecidableEq α] :
    DecidableEq (Except ε α) := fun a b =>
  match a, b with
  | .ok x, .ok y =>
    if h : x = y then isTrue (congrArg _ h)
    else isFalse (fun c => h (Except.ok.inj c))
  | .error x, .error y =>
    if h : x = y then isTrue (congrArg _ h)
    else isFalse (fun c => h (Except.error.inj c))
  | .ok _, .error _ => isFalse (fun c => Except.noConfusion c)
  | .error _, .ok _ => isFalse (fun c => Except.noConfusion c)

/-- The `for name in cmd.argnames` loop of `Baker.apply`: rearranges the
parsed `(args, kwargs)` into `(newargs, newkwargs)` plus the bare tokens
left over when the loop finishes (by exhaustion or by the `break` taken
at a keyword slot when no bare tokens remain). -/
def applyLoop (cmd : Cmd) :
    List String → List String → List Value → KW →
    Except PErr (List Value × KW × List String)
  | [], args, newargs, newkwargs => .ok (newargs, newkwargs, args)
  | name :: names, args, newargs, newkwargs =>
    if (kwLookup cmd.keywords name).isSome then
      match args with
      | [] => .ok (newargs, newkwargs, [])   -- if not args: break
      | a :: args2 =>
        if cmd.has_varargs then
          -- keyword params are not replaced by bare args, but must be
          -- specified positionally for proper processing of varargs
          match kwLookup newkwargs name with
          | some v =>
            applyLoop cmd names (a :: args2) (newargs ++ [v])
              (kwErase newkwargs name)
          | Option.none =>
            applyLoop cmd names (a :: args2)
              (newargs ++ [(kwLookup cmd.keywords name).getD .none]) newkwargs
        else
          match kwLookup newkwargs name with
          | some _ => applyLoop cmd names (a :: args2) newargs newkwargs
          | Option.none =>
            applyLoop cmd names args2 newargs (kwInsert newkwargs name (.str a))
    else
      -- positional arg
      match kwLookup newkwargs name with
      | some v =>
        applyLoop cmd names args (newargs ++ [v]) (kwErase newkwargs name)
      | Option.none =>
        match args with
        | a :: args2 => applyLoop cmd names args2 (newargs ++ [.str a]) newkwargs
        | [] =>
          .error (.commandError
            ("Required argument " ++ pyRepr (.str name) ++ " not given"))

/-- The trailing unknown-option check of `Baker.apply`: without an open
`**kwargs` bag, the first surviving keyword not declared in `keywords`
raises `CommandError`. -/
def checkKw (cmd : Cmd) (newargs : List Value) (newkwargs : KW) :
    Except PErr (List Value × KW) :=
  if cmd.has_kwargs then .ok (newargs, newkwargs)
  else
    match newkwargs.find? (fun p => !(kwLookup cmd.keywords p.1).isSome) with
    | some p => .error (.commandError ("Unknown option --" ++ p.1))
    | Option.none => .ok (newargs, newkwargs)

/-- `Baker.apply(scriptname, cmd, args, kwargs)` up to (but not
including) the call of the underlying function: it yields the
`(newargs, newkwargs)` pair passed to `cmd.fn(*newargs, **newkwargs)`. -/
def apply (cmd : Cmd) (args : List String) (kwargs : KW) :
    Except PErr (List Value × KW) :=
  match applyLoop cmd cmd.argnames args [] kwargs with
  | .error e => .error e
  | .ok (newargs, newkwargs, rest) =>
    if rest ≠ [] then
      if cmd.has_varargs then
        checkKw cmd (newargs ++ rest.map .str) newkwargs
      else
        .error (.commandError
          ("Too many arguments to " ++ cmd.name ++ ": "
            ++ String.intercalate " " rest))
    else checkKw cmd newargs newkwargs

/-- The environment a Python call `fn(*pos, **kw)` constructs for a
signature `fn(argnames..., *varargs, **kwbag)`: a binding for each
declared parameter (in declaration order), the variadic tail, and the
open keyword bag. -/
structure CallEnv where
  bindings : KW
  varargs : List Value
  kwbag : KW
deriving DecidableEq, Repr

/-- Python's call-binding semantics for the signatures registered with
Baker (positional-or-keyword parameters with the defaults recorded in
`cmd.keywords`, a `*args` tail iff `has_varargs`, a `**kwargs` bag iff
`has_kwargs`; no keyword-only parameters).  `.error ()` is `TypeError`
(duplicate value for a parameter, missing required parameter, excess
positional values, or unexpected keyword). -/
def bindLoop (cmd : Cmd) :
    List String → List Value → KW → KW → Except Unit CallEnv
  | n :: ns, v :: vs, kw, acc =>
    if (kwLookup kw n).isSome then .error ()   -- multiple values for n
    else bindLoop cmd ns vs kw (acc ++ [(n, v)])
  | n :: ns, [], kw, acc =>
    (match kwLookup kw n with
     | some v => bindLoop cmd ns [] (kwErase kw n) (acc ++ [(n, v)])
     | Option.none =>
       match kwLookup cmd.keywords n with
       | some d => bindLoop cmd ns [] kw (acc ++ [(n, d)])
       | Option.none => .error ())              -- missing required argument
  | [], vs, kw, acc =>
    if vs ≠ [] ∧ cmd.has_varargs = false then .error ()
    else if kw ≠ [] ∧ cmd.has_kwargs = false then .error ()
    else .ok ⟨acc, vs, kw⟩

/-- See `bindLoop`. -/
def bindCall (cmd : Cmd) (pos : List Value) (kw : KW) : Except Unit CallEnv :=
  bindLoop cmd cmd.argnames pos kw []

/-! Characterization helpers: small recursive functions that mirror the
three phases of `applyLoop` (required slots, then keyword slots with or
without a variadic tail) and the keyword phase of `bindLoop`.  They exist
to factor the reconciliation proofs; `applyLoop`/`bindLoop` above remain
the embedding of the source. -/

/-- The keys of a keyword map. -/
def kwKeys (m : KW) : List String :=
  m.map Prod.fst

/-- Erase every key in `l` from `m`. -/
def kwEraseList (m : KW) (l : List String) : KW :=
  l.foldl kwErase m

/-- The required-slot phase of `applyLoop`, as a standalone function. -/
def reqStep : List String → List String → List Value → KW →
    Except PErr (List String × List Value × KW)
  | [], args, na, nk => .ok (args, na, nk)
  | n :: ns, args, na, nk =>
    match kwLookup nk n with
    | some v => reqStep ns args (na ++ [v]) (kwErase nk n)
    | Option.none =>
      match args with
      | a :: args2 => reqStep ns args2 (na ++ [.str a]) nk
      | [] =>
        .error (.commandError
          ("Required argument " ++ pyRepr (.str n) ++ " not given"))

/-- The values the required-slot phase appends, one per slot. -/
def reqVals : List String → List String → KW → List Value
  | [], _, _ => []
  | n :: ns, args, nk =>
    match kwLookup nk n with
    | some v => v :: reqVals ns args (kwErase nk n)
    | Option.none =>
      match args with
      | a :: args2 => Value.str a :: reqVals ns args2 nk
      | [] => []

/-- How many bare tokens the required-slot phase consumes: one per
required name not satisfied by an explicit named option. -/
def reqConsumed (req : List String) (nk : KW) : Nat :=
  (req.filter (fun n => (kwLookup nk n).isNone)).length

/-- The keyword-slot phase of `applyLoop` when the command has a variadic
tail: while bare tokens remain, each slot contributes its named value (if
supplied, which also removes it from the keyword map) or its declared
default; bare tokens are never consumed. -/
def kwFillV (cmd : Cmd) : List String → List String → KW → List Value × KW
  | [], _, nk => ([], nk)
  | _ :: _, [], nk => ([], nk)
  | n :: ns, a :: args2, nk =>
    match kwLookup nk n with
    | some v =>
      let r := kwFillV cmd ns (a :: args2) (kwErase nk n)
      (v :: r.1, r.2)
    | Option.none =>
      let r := kwFillV cmd ns (a :: args2) nk
      (((kwLookup cmd.keywords n).getD .none) :: r.1, r.2)

/-- The keyword-slot phase of `applyLoop` when the command has no
variadic tail: a slot not satisfied by name consumes the next bare token
into the keyword map (uncoerced); satisfied slots are skipped; the phase
stops when tokens run out.  Returns the new map and the leftover
tokens. -/
def kwFillNV : List String → List String → KW → KW × List String
  | [], args, nk => (nk, args)
  | _ :: _, [], nk => (nk, [])
  | n :: ns, a :: args2, nk =>
    if (kwLookup nk n).isSome then kwFillNV ns (a :: args2) nk
    else kwFillNV ns args2 (kwInsert nk n (.str a))

/-- The keyword phase of `bindLoop` (declared names left after positional
binding): each takes its value from the keyword map (removing it) or
falls back to the declared default.  Returns the bindings produced and
the leftover keyword map. -/
def bindKWSpec (cmd : Cmd) : List String → KW → KW × KW
  | [], kw => ([], kw)
  | n :: ns, kw =>
    match kwLookup kw n with
    | some v =>
      let r := bindKWSpec cmd ns (kwErase kw n)
      ((n, v) :: r.1, r.2)
    | Option.none =>
      let r := bindKWSpec cmd ns kw
      ((n, (kwLookup cmd.keywords n).getD .none) :: r.1, r.2)

/-- The value a keyword slot ends up with when bare positional tokens
cannot reach it: the explicitly named value if one was parsed, else the
declared default. -/
def namedOrDefault (cmd : Cmd) (kwargs : KW) (n : String) : Value :=
  (kwLookup kwargs n).getD ((kwLookup cmd.keywords n).getD .none)

/-- A command registry: `Baker.commands` plus `Baker.defaultcommand`. -/
structure BakerState where
  commands : List (String × Cmd)
  defaultcommand : Option Cmd
deriving DecidableEq, Repr

/-- `argv[1] in self.commands` / `self.commands[argv[1]]`. -/
def findCommand (b : BakerState) (n : String) : Option Cmd :=
  (b.commands.find? (fun p => p.1 = n)).map (·.2)

/-- The distinguishable outcomes of `Baker.parse`: the two help
exceptions, an error, or the `(scriptname, cmd, args, kwargs)` tuple. -/
inductive ParseRes where
  | topHelp
  | commandHelp (c : Cmd)
  | err (e : PErr)
  | ok (scriptname : String) (c : Cmd) (vargs : List String) (kwargs : KW)
deriving DecidableEq, Repr

/-- `Baker.parse(argv, test)`.  The second component of the result is the
content of the caller-supplied `argv` list when `parse` returns or
raises: `parse` mutates that list only by appending the default command's
name (which happens after `scriptname = argv[0]`, so an empty `argv`
raises `IndexError` untouched); `parse_args` receives the slice copy
`argv[2:]`/`argv[1:]` and never affects the caller's list. -/
def parse (b : BakerState) (argv0 : List String) (test : Bool) :
    ParseRes × List String :=
  match argv0 with
  | [] => (.err .indexError, [])    -- scriptname = argv[0]
  | scriptname :: _ =>
    let argv :=
      match b.defaultcommand with
      | some dc => if argv0.length < 2 then argv0 ++ [dc.name] else argv0
      | Option.none => argv0
    let res :=
      if argv.length < 2 ∨ argv.get? 1 = some "-h" ∨ argv.get? 1 = some "--help"
      then ParseRes.topHelp
      else if argv.get? 1 = some "help" then
        match argv.get? 2 with
        | some c2 =>
          match findCommand b c2 with
          | some cmd => ParseRes.commandHelp cmd
          | Option.none => ParseRes.topHelp
        | Option.none => ParseRes.topHelp
      else
        match argv.get? 1 with
        | some a1 =>
          match findCommand b a1 with
          | some cmd =>
            if argv.get? 2 = some "-h" ∨ argv.get? 2 = some "--help" then
              ParseRes.commandHelp cmd
            else
              match parseArgs cmd test (argv.drop 2) with
              | .ok (vargs, kwargs) => ParseRes.ok scriptname cmd vargs kwargs
              | .error e => ParseRes.err e
          | Option.none =>
            match b.defaultcommand with
            | some cmd =>
              match parseArgs cmd test (argv.drop 1) with
              | .ok (vargs, kwargs) => ParseRes.ok scriptname cmd vargs kwargs
              | .error e => ParseRes.err e
            | Option.none => ParseRes.err (.commandError "No command specified")
        | Option.none => ParseRes.topHelp
    (res, argv)

/-! Concrete commands and registries used to instantiate the theorems:
each is the descriptor `Baker.command` would build for the Python
signature named in its comment. -/

/-- `def test(a, b=0, *rest)`. -/
def cmdVarKw : Cmd := ⟨"test", ["a", "b"], [("b", .int 0)], [], true, false⟩

/-- `def vtest(a, *rest)`. -/
def cmdVarOnly : Cmd := ⟨"vtest", ["a"], [], [], true, false⟩

/-- `def test(a, b=0, c=4)` (the signature in the double-dash test). -/
def cmdTwoKw : Cmd :=
  ⟨"test", ["a", "b", "c"], [("b", .int 0), ("c", .int 4)], [], false, false⟩

/-- `def t(a)`. -/
def cmdPlain : Cmd := ⟨"t", ["a"], [], [], false, false⟩

/-- `def t(a, **kw)`: same, with an open keyword bag. -/
def cmdPlainBag : Cmd := ⟨"t", ["a"], [], [], false, true⟩

/-- `def t(n=0)` registered with `shortopts={"n": "n"}`. -/
def cmdShortN : Cmd :=
  ⟨"t", ["n"], [("n", .int 0)], [("n", 'n')], false, false⟩

/-- `def t6(a=0, b=1)`. -/
def cmdBothKw : Cmd :=
  ⟨"t6", ["a", "b"], [("a", .int 0), ("b", .int 1)], [], false, false⟩

/-- `def t(flag=True)` registered with `shortopts={"flag": "f"}`. -/
def cmdBoolT : Cmd :=
  ⟨"t", [], [("flag", .bool true)], [("flag", 'f')], false, false⟩

/-- A registry holding `cmdVarOnly` and no default command. -/
def bakerVar : BakerState := ⟨[("vtest", cmdVarOnly)], Option.none⟩

/-- A registry where `cmdPlain` is registered and is the default. -/
def bakerWithDefault : BakerState := ⟨[("t", cmdPlain)], some cmdPlain⟩

/-- An empty registry with no default command. -/
def bakerNone : BakerState := ⟨[], Option.none⟩

/-! ## Association-map algebra -/

theorem kwLookup_insert_self (m : KW) (k : String) (v : Value) :
    kwLookup (kwInsert m k v) k = some v := by
  induction m with
  | nil => simp [kwInsert, kwLookup]
  | cons p t ih =>
    by_cases h : p.1 = k
    · simp [kwInsert, kwLookup, h]
    · simp [kwInsert, kwLookup, h, ih]

theorem kwLookup_insert_ne (m : KW) (k k' : String) (v : Value)
    (h : k ≠ k') : kwLookup (kwInsert m k v) k' = kwLookup m k' := by
  induction m with
  | nil => simp [kwInsert, kwLookup, h]
  | cons p t ih =>
    by_cases hp : p.1 = k
    · simp [kwInsert, kwLookup, hp, h]
    · simp only [kwInsert, hp, if_false, kwLookup]
      by_cases hp' : p.1 = k' <;> simp [hp', ih]

theorem kwLookup_erase_ne (m : KW) (k k' : String) (h : k ≠ k') :
    kwLookup (kwErase m k) k' = kwLookup m k' := by
  induction m with
  | nil => simp [kwErase, kwLookup]
  | cons p t ih =>
    by_cases hp : p.1 = k
    · simp [kwErase, kwLookup, hp, h]
    · simp only [kwErase, hp, if_false, kwLookup]
      by_cases hp' : p.1 = k' <;> simp [hp', ih]

theorem kwLookup_isSome_iff_mem_keys (m : KW) (k : String) :
    (kwLookup m k).isSome = true ↔ k ∈ kwKeys m := by
  induction m with
  | nil => simp [kwLookup, kwKeys]
  | cons p t ih =>
    by_cases hp : p.1 = k
    · simp [kwLookup, kwKeys, hp]
    · simp [kwLookup, kwKeys, hp, ih, Ne.symm hp]

theorem kwLookup_eq_none_iff_not_mem_keys (m : KW) (k : String) :
    kwLookup m k = Option.none ↔ k ∉ kwKeys m := by
  rw [← kwLookup_isSome_iff_mem_keys]
  cases kwLookup m k <;> simp

theorem kwErase_of_lookup_none (m : KW) (k : String)
    (h : kwLookup m k = Option.none) : kwErase m k = m := by
  induction m with
  | nil => rfl
  | cons p t ih =>
    by_cases hp : p.1 = k
    · simp [kwLookup, hp] at h
    · simp only [kwLookup, hp, if_false] at h
      simp [kwErase, hp, ih h]

theorem kwKeys_erase_sublist (m : KW) (k : String) :
    (kwKeys (kwErase m k)).Sublist (kwKeys m) := by
  induction m with
  | nil => simp [kwErase, kwKeys]
  | cons p t ih =>
    by_cases hp : p.1 = k
    · simp only [kwErase, hp, if_true, kwKeys, List.map_cons]
      exact (List.sublist_cons_self _ _)
    · simp only [kwErase, hp, if_false, kwKeys, List.map_cons]
      exact List.Sublist.cons₂ _ ih

theorem kwKeys_erase_nodup (m : KW) (k : String)
    (h : (kwKeys m).Nodup) : (kwKeys (kwErase m k)).Nodup :=
  (kwKeys_erase_sublist m k).nodup h

theorem kwLookup_erase_self (m : KW) (k : String)
    (h : (kwKeys m).Nodup) : kwLookup (kwErase m k) k = Option.none := by
  induction m with
  | nil => rfl
  | cons p t ih =>
    simp only [kwKeys, List.map_cons, List.nodup_cons] at h
    by_cases hp : p.1 = k
    · simp only [kwErase, hp, if_true]
      rw [kwLookup_eq_none_iff_not_mem_keys]
      exact hp ▸ h.1
    · simp only [kwErase, hp, if_false, kwLookup, hp, if_false]
      exact ih h.2

theorem kwErase_mem (m : KW) (k : String) (p : String × Value)
    (h : p ∈ kwErase m k) : p ∈ m := by
  induction m with
  | nil => simp [kwErase] at h
  | cons q t ih =>
    by_cases hq : q.1 = k
    · simp only [kwErase, hq, if_true] at h
      exact List.mem_cons_of_mem _ h
    · simp only [kwErase, hq, if_false, List.mem_cons] at h
      rcases h with h | h
      · exact h ▸ List.mem_cons_self _ _
      · exact List.mem_cons_of_mem _ (ih h)

theorem kwEraseList_cons (m : KW) (k : String) (l : List String) :
    kwEraseList m (k :: l) = kwEraseList (kwErase m k) l := rfl

theorem kwEraseList_mem (l : List String) :
    ∀ (m : KW) (p : String × Value), p ∈ kwEraseList m l → p ∈ m := by
  induction l with
  | nil => intro m p h; exact h
  | cons k t ih =>
    intro m p h
    exact kwErase_mem m k p (ih (kwErase m k) p h)

theorem kwKeys_eraseList_nodup (l : List String) :
    ∀ (m : KW), (kwKeys m).Nodup → (kwKeys (kwEraseList m l)).Nodup := by
  induction l with
  | nil => intro m h; exact h
  | cons k t ih => intro m h; exact ih _ (kwKeys_erase_nodup m k h)

theorem kwLookup_eraseList_not_mem (l : List String) :
    ∀ (m : KW) (k : String), k ∉ l →
    kwLookup (kwEraseList m l) k = kwLookup m k := by
  induction l with
  | nil => intro m k _; rfl
  | cons x t ih =>
    intro m k hk
    rw [kwEraseList_cons, ih _ _ (fun h => hk (List.mem_cons_of_mem _ h)),
      kwLookup_erase_ne]
    intro h
    exact hk (h ▸ List.mem_cons_self _ _)

theorem kwLookup_eraseList_mem (l : List String) :
    ∀ (m : KW) (k : String), (kwKeys m).Nodup → k ∈ l →
    kwLookup (kwEraseList m l) k = Option.none := by
  induction l with
  | nil => intro m k _ h; simp at h
  | cons x t ih =>
    intro m k hnd hk
    rw [kwEraseList_cons]
    rcases List.mem_cons.1 hk with h | h
    · by_cases ht : k ∈ t
      · exact ih _ _ (kwKeys_erase_nodup m x hnd) ht
      · rw [kwLookup_eraseList_not_mem t _ _ ht, h]
        exact kwLookup_erase_self m x hnd
    · exact ih _ _ (kwKeys_erase_nodup m x hnd) h

theorem kwEraseList_eq_nil (m : KW) (l : List String)
    (hnd : (kwKeys m).Nodup) (hsub : ∀ k ∈ kwKeys m, k ∈ l) :
    kwEraseList m l = [] := by
  rw [List.eq_nil_iff_forall_not_mem]
  intro p hp
  have hkey : p.1 ∈ kwKeys (kwEraseList m l) := List.mem_map_of_mem _ hp
  have hsome := (kwLookup_isSome_iff_mem_keys _ _).2 hkey
  have hmem : p ∈ m := kwEraseList_mem l m p hp
  have hml : p.1 ∈ l := hsub p.1 (List.mem_map_of_mem _ hmem)
  rw [kwLookup_eraseList_mem l m p.1 hnd hml] at hsome
  simp at hsome

theorem kwLookup_append_right (m1 m2 : KW) (k : String)
    (h : k ∉ kwKeys m1) : kwLookup (m1 ++ m2) k = kwLookup m2 k := by
  induction m1 with
  | nil => rfl
  | cons p t ih =>
    simp only [kwKeys, List.map_cons, List.mem_cons] at h
    push_neg at h
    simp only [List.cons_append, kwLookup, Ne.symm h.1, if_false]
    exact ih (by simpa [kwKeys] using h.2)

theorem kwLookup_append_left (m1 m2 : KW) (k : String) (v : Value)
    (h : kwLookup m1 k = some v) : kwLookup (m1 ++ m2) k = some v := by
  induction m1 with
  | nil => simp [kwLookup] at h
  | cons p t ih =>
    by_cases hp : p.1 = k
    · simp only [kwLookup, hp, if_true] at h
      simp [kwLookup, hp, h]
    · simp only [kwLookup, hp, if_false] at h
      simp only [List.cons_append, kwLookup, hp, if_false]
      exact ih h

/-! ## The required-slot phase of `Baker.apply` -/

theorem applyLoop_req (cmd : Cmd) (req : List String)
    (hreq : ∀ n ∈ req, kwLookup cmd.keywords n = Option.none) :
    ∀ (names args : List String) (na : List Value) (nk : KW),
    applyLoop cmd (req ++ names) args na nk =
      match reqStep req args na nk with
      | .ok r => applyLoop cmd names r.1 r.2.1 r.2.2
      | .error e => .error e := by
  induction req with
  | nil => intro names args na nk; rfl
  | cons n t ih =>
    intro names args na nk
    have hn : kwLookup cmd.keywords n = Option.none :=
      hreq n (List.mem_cons_self _ _)
    have ht : ∀ m ∈ t, kwLookup cmd.keywords m = Option.none :=
      fun m hm => hreq m (List.mem_cons_of_mem _ hm)
    simp only [List.cons_append, applyLoop, hn, Option.isSome_none,
      Bool.false_eq_true, if_false]
    cases hnk : kwLookup nk n with
    | some v =>
      simpa [reqStep, hnk] using ih ht names args (na ++ [v]) (kwErase nk n)
    | none =>
      cases args with
      | cons a args2 =>
        simpa [reqStep, hnk] using ih ht names args2 (na ++ [.str a]) nk
      | nil => simp [reqStep, hnk]

theorem reqConsumed_erase (t : List String) (nk : KW) (n : String)
    (hn : n ∉ t) : reqConsumed t (kwErase nk n) = reqConsumed t nk := by
  unfold reqConsumed
  congr 1
  apply List.filter_congr
  intro m hm
  rw [kwLookup_erase_ne nk n m (fun h => hn (h ▸ hm))]

theorem reqStep_ok (req : List String) :
    ∀ (args : List String) (na : List Value) (nk : KW), req.Nodup →
    (kwKeys nk).Nodup → reqConsumed req nk ≤ args.length →
    reqStep req args na nk =
      .ok (args.drop (reqConsumed req nk), na ++ reqVals req args nk,
        kwEraseList nk req) := by
  induction req with
  | nil =>
    intro args na nk _ _ _
    simp [reqStep, reqConsumed, reqVals, kwEraseList]
  | cons n t ih =>
    intro args na nk hnd hknd hle
    have hnt : n ∉ t := (List.nodup_cons.1 hnd).1
    have htnd : t.Nodup := (List.nodup_cons.1 hnd).2
    cases hnk : kwLookup nk n with
    | some v =>
      have hcnt : reqConsumed (n :: t) nk = reqConsumed t (kwErase nk n) := by
        rw [reqConsumed_erase t nk n hnt]
        unfold reqConsumed
        simp [hnk]
      rw [hcnt] at hle ⊢
      have := ih args (na ++ [v]) (kwErase nk n) htnd
        (kwKeys_erase_nodup nk n hknd) hle
      simp only [reqStep, hnk, this, reqVals, kwEraseList_cons]
      simp
    | none =>
      have hcnt : reqConsumed (n :: t) nk = reqConsumed t nk + 1 := by
        unfold reqConsumed
        simp [hnk, Nat.add_comm]
      rw [hcnt] at hle ⊢
      cases args with
      | nil => simp at hle
      | cons a args2 =>
        simp only [List.length_cons, Nat.add_le_add_iff_right] at hle
        have := ih args2 (na ++ [.str a]) nk htnd hknd hle
        simp only [reqStep, hnk, this, reqVals, kwEraseList_cons,
          kwErase_of_lookup_none nk n hnk]
        simp [List.drop_succ_cons]

theorem reqVals_length (req : List String) :
    ∀ (args : List String) (nk : KW), req.Nodup → (kwKeys nk).Nodup →
    reqConsumed req nk ≤ args.length →
    (reqVals req args nk).length = req.length := by
  induction req with
  | nil => intro args nk _ _ _; rfl
  | cons n t ih =>
    intro args nk hnd hknd hle
    have hnt : n ∉ t := (List.nodup_cons.1 hnd).1
    have htnd : t.Nodup := (List.nodup_cons.1 hnd).2
    cases hnk : kwLookup nk n with
    | some v =>
      have hcnt : reqConsumed (n :: t) nk = reqConsumed t (kwErase nk n) := by
        rw [reqConsumed_erase t nk n hnt]
        unfold reqConsumed
        simp [hnk]
      rw [hcnt] at hle
      simp only [reqVals, hnk, List.length_cons]
      rw [ih args (kwErase nk n) htnd (kwKeys_erase_nodup nk n hknd) hle]
    | none =>
      have hcnt : reqConsumed (n :: t) nk = reqConsumed t nk + 1 := by
        unfold reqConsumed
        simp [hnk, Nat.add_comm]
      rw [hcnt] at hle
      cases args with
      | nil => simp at hle
      | cons a args2 =>
        simp only [List.length_cons, Nat.add_le_add_iff_right] at hle
        simp only [reqVals, hnk, List.length_cons]
        rw [ih args2 nk htnd hknd hle]

/-! ## The keyword-slot phase of `Baker.apply` -/

theorem applyLoop_kws_var (cmd : Cmd) (hv : cmd.has_varargs = true)
    (kws : List String)
    (hkws : ∀ n ∈ kws, (kwLookup cmd.keywords n).isSome) :
    ∀ (args : List String) (na : List Value) (nk : KW),
    applyLoop cmd kws args na nk =
      .ok (na ++ (kwFillV cmd kws args nk).1, (kwFillV cmd kws args nk).2,
        args) := by
  induction kws with
  | nil => intro args na nk; simp [applyLoop, kwFillV]
  | cons n t ih =>
    intro args na nk
    have hn : (kwLookup cmd.keywords n).isSome :=
      hkws n (List.mem_cons_self _ _)
    have ht : ∀ m ∈ t, (kwLookup cmd.keywords m).isSome :=
      fun m hm => hkws m (List.mem_cons_of_mem _ hm)
    cases args with
    | nil => simp [applyLoop, hn, kwFillV]
    | cons a args2 =>
      simp only [applyLoop, hn, if_true, hv]
      cases hnk : kwLookup nk n with
      | some v => simp [ih ht, kwFillV, hnk]
      | none => simp [ih ht, kwFillV, hnk]

theorem applyLoop_kws_novar (cmd : Cmd) (hv : cmd.has_varargs = false)
    (kws : List String)
    (hkws : ∀ n ∈ kws, (kwLookup cmd.keywords n).isSome) :
    ∀ (args : List String) (na : List Value) (nk : KW),
    applyLoop cmd kws args na nk =
      .ok (na, (kwFillNV kws args nk).1, (kwFillNV kws args nk).2) := by
  induction kws with
  | nil => intro args na nk; simp [applyLoop, kwFillNV]
  | cons n t ih =>
    intro args na nk
    have hn : (kwLookup cmd.keywords n).isSome :=
      hkws n (List.mem_cons_self _ _)
    have ht : ∀ m ∈ t, (kwLookup cmd.keywords m).isSome :=
      fun m hm => hkws m (List.mem_cons_of_mem _ hm)
    cases args with
    | nil => simp [applyLoop, hn, kwFillNV]
    | cons a args2 =>
      simp only [applyLoop, hn, if_true, hv]
      cases hnk : kwLookup nk n with
      | some v => simp [ih ht, kwFillNV, hnk]
      | none => simp [ih ht, kwFillNV, hnk]

theorem kwFillV_char (cmd : Cmd) (kws : List String) :
    ∀ (args : List String) (nk : KW), kws.Nodup → (kwKeys nk).Nodup →
    args ≠ [] →
    (kwFillV cmd kws args nk).1 =
      kws.map (fun n => (kwLookup nk n).getD
        ((kwLookup cmd.keywords n).getD .none)) ∧
    (kwFillV cmd kws args nk).2 = kwEraseList nk kws := by
  induction kws with
  | nil => intro args nk _ _ _; simp [kwFillV, kwEraseList]
  | cons n t ih =>
    intro args nk hnd hknd hargs
    have hnt : n ∉ t := (List.nodup_cons.1 hnd).1
    have htnd : t.Nodup := (List.nodup_cons.1 hnd).2
    cases args with
    | nil => exact absurd rfl hargs
    | cons a args2 =>
      cases hnk : kwLookup nk n with
      | some v =>
        have hih := ih (a :: args2) (kwErase nk n) htnd
          (kwKeys_erase_nodup nk n hknd) (by simp)
        have hmap : (t.map (fun m => (kwLookup (kwErase nk n) m).getD
            ((kwLookup cmd.keywords m).getD .none))) =
            (t.map (fun m => (kwLookup nk m).getD
            ((kwLookup cmd.keywords m).getD .none))) := by
          apply List.map_congr_left
          intro m hm
          rw [kwLookup_erase_ne nk n m (fun h => hnt (h ▸ hm))]
        constructor
        · simp only [kwFillV, hnk, List.map_cons]
          rw [hih.1, hmap]
          simp [hnk]
        · simp only [kwFillV, hnk, kwEraseList_cons]
          exact hih.2
      | none =>
        have hih := ih (a :: args2) nk htnd hknd (by simp)
        constructor
        · simp only [kwFillV, hnk, List.map_cons]
          rw [hih.1]
          simp [hnk]
        · simp only [kwFillV, hnk, kwEraseList_cons,
            kwErase_of_lookup_none nk n hnk]
          exact hih.2

theorem kwKeys_insert_mem (m : KW) (k : String) (v : Value) (k' : String)
    (h : k' ∈ kwKeys (kwInsert m k v)) : k' ∈ kwKeys m ∨ k' = k := by
  induction m with
  | nil =>
    simp [kwInsert, kwKeys] at h
    exact Or.inr h
  | cons p t ih =>
    by_cases hp : p.1 = k
    · simp only [kwInsert, hp, if_true, kwKeys, List.map_cons,
        List.mem_cons] at h ⊢
      rcases h with h | h
      · exact Or.inr h
      · exact Or.inl (Or.inr h)
    · simp only [kwInsert, hp, if_false, kwKeys, List.map_cons,
        List.mem_cons] at h ⊢
      rcases h with h | h
      · exact Or.inl (Or.inl h)
      · rcases ih h with h' | h'
        · exact Or.inl (Or.inr h')
        · exact Or.inr h'

theorem kwKeys_insert_nodup (m : KW) (k : String) (v : Value)
    (h : (kwKeys m).Nodup) : (kwKeys (kwInsert m k v)).Nodup := by
  induction m with
  | nil => simp [kwInsert, kwKeys]
  | cons p t ih =>
    simp only [kwKeys, List.map_cons, List.nodup_cons] at h
    by_cases hp : p.1 = k
    · simp only [kwInsert, hp, if_true, kwKeys, List.map_cons,
        List.nodup_cons]
      exact ⟨hp ▸ h.1, h.2⟩
    · simp only [kwInsert, hp, if_false, kwKeys, List.map_cons,
        List.nodup_cons]
      refine ⟨?_, ih h.2⟩
      intro hmem
      rcases kwKeys_insert_mem t k v p.1 hmem with h' | h'
      · exact h.1 h'
      · exact hp h'

theorem kwKeys_fillNV_mem (kws : List String) :
    ∀ (args : List String) (nk : KW) (k : String),
    k ∈ kwKeys (kwFillNV kws args nk).1 → k ∈ kwKeys nk ∨ k ∈ kws := by
  induction kws with
  | nil => intro args nk k h; exact Or.inl h
  | cons n t ih =>
    intro args nk k h
    cases args with
    | nil => exact Or.inl h
    | cons a args2 =>
      cases hnk : kwLookup nk n with
      | some v =>
        simp only [kwFillNV, hnk, Option.isSome_some, if_true] at h
        rcases ih (a :: args2) nk k h with h' | h'
        · exact Or.inl h'
        · exact Or.inr (List.mem_cons_of_mem _ h')
      | none =>
        simp only [kwFillNV, hnk, Option.isSome_none, Bool.false_eq_true,
          if_false] at h
        rcases ih args2 (kwInsert nk n (.str a)) k h with h' | h'
        · rcases kwKeys_insert_mem nk n (.str a) k h' with h'' | h''
          · exact Or.inl h''
          · exact Or.inr (h'' ▸ List.mem_cons_self _ _)
        · exact Or.inr (List.mem_cons_of_mem _ h')

theorem kwKeys_fillNV_nodup (kws : List String) :
    ∀ (args : List String) (nk : KW), (kwKeys nk).Nodup →
    (kwKeys (kwFillNV kws args nk).1).Nodup := by
  induction kws with
  | nil => intro args nk h; exact h
  | cons n t ih =>
    intro args nk h
    cases args with
    | nil => exact h
    | cons a args2 =>
      cases hnk : kwLookup nk n with
      | some v =>
        simp only [kwFillNV, hnk, Option.isSome_some, if_true]
        exact ih (a :: args2) nk h
      | none =>
        simp only [kwFillNV, hnk, Option.isSome_none, Bool.false_eq_true,
          if_false]
        exact ih args2 _ (kwKeys_insert_nodup nk n _ h)

theorem kwFillNV_lookup_some (kws : List String) :
    ∀ (args : List String) (nk : KW) (k : String) (v : Value),
    kwLookup nk k = some v →
    kwLookup (kwFillNV kws args nk).1 k = some v := by
  induction kws with
  | nil => intro args nk k v h; exact h
  | cons n t ih =>
    intro args nk k v h
    cases args with
    | nil => exact h
    | cons a args2 =>
      cases hnk : kwLookup nk n with
      | some w =>
        simp only [kwFillNV, hnk, Option.isSome_some, if_true]
        exact ih (a :: args2) nk k v h
      | none =>
        simp only [kwFillNV, hnk, Option.isSome_none, Bool.false_eq_true,
          if_false]
        apply ih args2 (kwInsert nk n (.str a)) k v
        have hne : n ≠ k := by
          intro he
          rw [he, h] at hnk
          simp at hnk
        rw [kwLookup_insert_ne nk n k _ hne]
        exact h

theorem kwFillNV_lookup_not_mem (kws : List String) :
    ∀ (args : List String) (nk : KW) (k : String), k ∉ kws →
    kwLookup (kwFillNV kws args nk).1 k = kwLookup nk k := by
  induction kws with
  | nil => intro args nk k _; rfl
  | cons n t ih =>
    intro args nk k hk
    have hkt : k ∉ t := fun h => hk (List.mem_cons_of_mem _ h)
    have hne : n ≠ k := fun h => hk (h ▸ List.mem_cons_self _ _)
    cases args with
    | nil => rfl
    | cons a args2 =>
      cases hnk : kwLookup nk n with
      | some v =>
        simp only [kwFillNV, hnk, Option.isSome_some, if_true]
        exact ih (a :: args2) nk k hkt
      | none =>
        simp only [kwFillNV, hnk, Option.isSome_none, Bool.false_eq_true,
          if_false]
        rw [ih args2 _ k hkt, kwLookup_insert_ne nk n k _ hne]

theorem kwFillNV_fill_order (kws : List String) :
    ∀ (args : List String) (nk : KW), kws.Nodup →
    ∀ (i : Nat) (n a : String),
    (kws.filter (fun m => (kwLookup nk m).isNone)).get? i = some n →
    args.get? i = some a →
    kwLookup (kwFillNV kws args nk).1 n = some (.str a) := by
  induction kws with
  | nil => intro args nk _ i n a h1 _; simp at h1
  | cons n0 t ih =>
    intro args nk hnd i n a h1 h2
    have hnt : n0 ∉ t := (List.nodup_cons.1 hnd).1
    have htnd : t.Nodup := (List.nodup_cons.1 hnd).2
    cases args with
    | nil => simp at h2
    | cons a0 args2 =>
      cases hnk : kwLookup nk n0 with
      | some v =>
        have hfil : (n0 :: t).filter (fun m => (kwLookup nk m).isNone) =
            t.filter (fun m => (kwLookup nk m).isNone) := by
          simp [List.filter, hnk]
        rw [hfil] at h1
        simp only [kwFillNV, hnk, Option.isSome_some, if_true]
        exact ih (a0 :: args2) nk htnd i n a h1 h2
      | none =>
        have hfil : (n0 :: t).filter (fun m => (kwLookup nk m).isNone) =
            n0 :: t.filter (fun m => (kwLookup nk m).isNone) := by
          simp [List.filter, hnk]
        rw [hfil] at h1
        simp only [kwFillNV, hnk, Option.isSome_none, Bool.false_eq_true,
          if_false]
        cases i with
        | zero =>
          simp only [List.get?, Option.some.injEq] at h1 h2
          subst h1
          subst h2
          exact kwFillNV_lookup_some t args2 _ n0 (.str a0)
            (kwLookup_insert_self nk n0 (.str a0))
        | succ j =>
          simp only [List.get?] at h1 h2
          have hfil2 : t.filter (fun m => (kwLookup nk m).isNone) =
              t.filter (fun m =>
                (kwLookup (kwInsert nk n0 (.str a0)) m).isNone) := by
            apply List.filter_congr
            intro m hm
            rw [kwLookup_insert_ne nk n0 m _ (fun h => hnt (h ▸ hm))]
          rw [hfil2] at h1
          exact ih args2 (kwInsert nk n0 (.str a0)) htnd j n a h1 h2

theorem kwFillNV_rest_nil (kws : List String) :
    ∀ (args : List String) (nk : KW), kws.Nodup →
    args.length ≤ (kws.filter (fun n => (kwLookup nk n).isNone)).length →
    (kwFillNV kws args nk).2 = [] := by
  induction kws with
  | nil =>
    intro args nk _ h
    simp only [List.filter_nil, List.length_nil, Nat.le_zero,
      List.length_eq_zero] at h
    simp [kwFillNV, h]
  | cons n t ih =>
    intro args nk hnd h
    have hnt : n ∉ t := (List.nodup_cons.1 hnd).1
    have htnd : t.Nodup := (List.nodup_cons.1 hnd).2
    cases args with
    | nil => cases t <;> rfl
    | cons a args2 =>
      cases hnk : kwLookup nk n with
      | some v =>
        have hfil : (n :: t).filter (fun m => (kwLookup nk m).isNone) =
            t.filter (fun m => (kwLookup nk m).isNone) := by
          simp [List.filter, hnk]
        rw [hfil] at h
        simp only [kwFillNV, hnk, Option.isSome_some, if_true]
        exact ih (a :: args2) nk htnd h
      | none =>
        have hfil : (n :: t).filter (fun m => (kwLookup nk m).isNone) =
            n :: t.filter (fun m => (kwLookup nk m).isNone) := by
          simp [List.filter, hnk]
        rw [hfil] at h
        simp only [kwFillNV, hnk, Option.isSome_none, Bool.false_eq_true,
          if_false]
        apply ih args2 _ htnd
        have hfil2 : t.filter (fun m =>
            (kwLookup (kwInsert nk n (.str a)) m).isNone) =
            t.filter (fun m => (kwLookup nk m).isNone) := by
          apply List.filter_congr
          intro m hm
          rw [kwLookup_insert_ne nk n m _ (fun hh => hnt (hh ▸ hm))]
        rw [hfil2]
        simpa using Nat.le_of_succ_le_succ h

/-! ## Call-binding phase lemmas -/

theorem bindLoop_pos (cmd : Cmd) (ns1 : List String) :
    ∀ (pos1 pos2 : List Value) (ns2 : List String) (kw acc : KW),
    ns1.length = pos1.length →
    (∀ n ∈ ns1, kwLookup kw n = Option.none) →
    bindLoop cmd (ns1 ++ ns2) (pos1 ++ pos2) kw acc =
      bindLoop cmd ns2 pos2 kw (acc ++ ns1.zip pos1) := by
  induction ns1 with
  | nil =>
    intro pos1 pos2 ns2 kw acc hlen _
    have hp : pos1 = [] := List.length_eq_zero.1 hlen.symm
    subst hp
    simp
  | cons n t ih =>
    intro pos1 pos2 ns2 kw acc hlen hnone
    cases pos1 with
    | nil => simp at hlen
    | cons v vs =>
      have hn := hnone n (List.mem_cons_self _ _)
      simp only [List.cons_append, bindLoop, hn, Option.isSome_none,
        Bool.false_eq_true, if_false, List.append_eq]
      rw [ih vs pos2 ns2 kw (acc ++ [(n, v)]) (by simpa using hlen)
        (fun m hm => hnone m (List.mem_cons_of_mem _ hm))]
      simp [List.zip_cons_cons]

theorem bindLoop_kw (cmd : Cmd) (ns : List String)
    (hns : ∀ n ∈ ns, (kwLookup cmd.keywords n).isSome) :
    ∀ (kw acc : KW),
    bindLoop cmd ns [] kw acc =
      if (bindKWSpec cmd ns kw).2 ≠ [] ∧ cmd.has_kwargs = false then
        .error ()
      else .ok ⟨acc ++ (bindKWSpec cmd ns kw).1, [], (bindKWSpec cmd ns kw).2⟩
    := by
  induction ns with
  | nil =>
    intro kw acc
    simp [bindLoop, bindKWSpec]
  | cons n t ih =>
    intro kw acc
    have hn := hns n (List.mem_cons_self _ _)
    have ht : ∀ m ∈ t, (kwLookup cmd.keywords m).isSome :=
      fun m hm => hns m (List.mem_cons_of_mem _ hm)
    cases hkw : kwLookup kw n with
    | some v =>
      simp only [bindLoop, hkw]
      rw [ih ht (kwErase kw n) (acc ++ [(n, v)])]
      simp [bindKWSpec, hkw]
    | none =>
      rcases Option.isSome_iff_exists.1 hn with ⟨d, hd⟩
      simp only [bindLoop, hkw, hd]
      rw [ih ht kw (acc ++ [(n, d)])]
      simp [bindKWSpec, hkw, hd]

theorem bindKWSpec_snd (cmd : Cmd) (ns : List String) :
    ∀ (kw : KW), (bindKWSpec cmd ns kw).2 = kwEraseList kw ns := by
  induction ns with
  | nil => intro kw; rfl
  | cons n t ih =>
    intro kw
    cases hkw : kwLookup kw n with
    | some v =>
      simp only [bindKWSpec, hkw, kwEraseList_cons]
      exact ih (kwErase kw n)
    | none =>
      simp only [bindKWSpec, hkw, kwEraseList_cons,
        kwErase_of_lookup_none kw n hkw]
      exact ih kw

theorem bindKWSpec_lookup (cmd : Cmd) (ns : List String) :
    ∀ (kw : KW), ns.Nodup → ∀ n ∈ ns,
    kwLookup (bindKWSpec cmd ns kw).1 n =
      some ((kwLookup kw n).getD ((kwLookup cmd.keywords n).getD .none)) := by
  induction ns with
  | nil => intro kw _ n hn; simp at hn
  | cons n0 t ih =>
    intro kw hnd n hn
    have hnt : n0 ∉ t := (List.nodup_cons.1 hnd).1
    have htnd : t.Nodup := (List.nodup_cons.1 hnd).2
    rcases List.mem_cons.1 hn with he | hm
    · subst he
      cases hkw : kwLookup kw n with
      | some v => simp [bindKWSpec, hkw, kwLookup]
      | none => simp [bindKWSpec, hkw, kwLookup]
    · have hne : n0 ≠ n := fun h => hnt (h ▸ hm)
      cases hkw : kwLookup kw n0 with
      | some v =>
        simp only [bindKWSpec, hkw, kwLookup, hne, if_false]
        rw [ih (kwErase kw n0) htnd n hm, kwLookup_erase_ne kw n0 n hne]
      | none =>
        simp only [bindKWSpec, hkw, kwLookup, hne, if_false]
        exact ih kw htnd n hm

theorem kwKeys_zip_mem (l : List String) :
    ∀ (vs : List Value) (k : String), k ∈ kwKeys (l.zip vs) → k ∈ l := by
  induction l with
  | nil => intro vs k h; simp [kwKeys] at h
  | cons n t ih =>
    intro vs k h
    cases vs with
    | nil => simp [kwKeys] at h
    | cons v ws =>
      simp only [List.zip_cons_cons, kwKeys, List.map_cons,
        List.mem_cons] at h
      rcases h with h | h
      · exact h ▸ List.mem_cons_self _ _
      · exact List.mem_cons_of_mem _ (ih ws k h)

theorem kwLookup_zip_map (l : List String) (f : String → Value) :
    ∀ (n : String), n ∈ l → kwLookup (l.zip (l.map f)) n = some (f n) := by
  induction l with
  | nil => intro n h; simp at h
  | cons x t ih =>
    intro n h
    by_cases hx : x = n
    · subst hx
      simp [List.zip_cons_cons, kwLookup]
    · rcases List.mem_cons.1 h with he | hm
      · exact absurd he.symm hx
      · simp only [List.map_cons, List.zip_cons_cons, kwLookup, hx, if_false]
        exact ih n hm

theorem zip_reqVals_lookup_named (req : List String) :
    ∀ (args : List String) (nk : KW) (n : String) (v : Value), req.Nodup →
    reqConsumed req nk ≤ args.length →
    n ∈ req → kwLookup nk n = some v →
    kwLookup (req.zip (reqVals req args nk)) n = some v := by
  induction req with
  | nil => intro args nk n v _ _ hn _; simp at hn
  | cons n0 t ih =>
    intro args nk n v hnd hle hn hv
    have hnt : n0 ∉ t := (List.nodup_cons.1 hnd).1
    have htnd : t.Nodup := (List.nodup_cons.1 hnd).2
    cases hnk : kwLookup nk n0 with
    | some w =>
      have hcnt : reqConsumed (n0 :: t) nk = reqConsumed t (kwErase nk n0) := by
        rw [reqConsumed_erase t nk n0 hnt]
        unfold reqConsumed
        simp [hnk]
      rw [hcnt] at hle
      by_cases he : n0 = n
      · subst he
        rw [hv] at hnk
        cases hnk
        simp [reqVals, hv, List.zip_cons_cons, kwLookup]
      · rcases List.mem_cons.1 hn with h' | hm
        · exact absurd h'.symm he
        · simp only [reqVals, hnk, List.zip_cons_cons, kwLookup, he, if_false]
          exact ih args (kwErase nk n0) n v htnd hle hm
            ((kwLookup_erase_ne nk n0 n he).symm ▸ hv)
    | none =>
      have hcnt : reqConsumed (n0 :: t) nk = reqConsumed t nk + 1 := by
        unfold reqConsumed
        simp [hnk, Nat.add_comm]
      rw [hcnt] at hle
      cases args with
      | nil => simp at hle
      | cons a args2 =>
        have he : n0 ≠ n := by
          intro h
          rw [h, hv] at hnk
          cases hnk
        rcases List.mem_cons.1 hn with h' | hm
        · exact absurd h'.symm he
        · simp only [reqVals, hnk, List.zip_cons_cons, kwLookup, he, if_false]
          exact ih args2 nk n v htnd (by simpa using hle) hm hv

theorem zip_reqVals_lookup_filled (req : List String) :
    ∀ (args : List String) (nk : KW), req.Nodup →
    ∀ (i : Nat) (n a : String),
    (req.filter (fun m => (kwLookup nk m).isNone)).get? i = some n →
    args.get? i = some a →
    kwLookup (req.zip (reqVals req args nk)) n = some (.str a) := by
  induction req with
  | nil => intro args nk _ i n a h1 _; simp at h1
  | cons n0 t ih =>
    intro args nk hnd i n a h1 h2
    have hnt : n0 ∉ t := (List.nodup_cons.1 hnd).1
    have htnd : t.Nodup := (List.nodup_cons.1 hnd).2
    cases hnk : kwLookup nk n0 with
    | some v =>
      have hfil : (n0 :: t).filter (fun m => (kwLookup nk m).isNone) =
          t.filter (fun m => (kwLookup nk m).isNone) := by
        simp [List.filter, hnk]
      rw [hfil] at h1
      have hmem : n ∈ t := by
        have := List.get?_mem h1
        exact List.mem_of_mem_filter this
      have hne : n0 ≠ n := fun h => hnt (h ▸ hmem)
      simp only [reqVals, hnk, List.zip_cons_cons, kwLookup, hne, if_false]
      have hfil2 : t.filter (fun m => (kwLookup nk m).isNone) =
          t.filter (fun m => (kwLookup (kwErase nk n0) m).isNone) := by
        apply List.filter_congr
        intro m hm
        rw [kwLookup_erase_ne nk n0 m (fun h => hnt (h ▸ hm))]
      rw [hfil2] at h1
      exact ih args (kwErase nk n0) htnd i n a h1 h2
    | none =>
      have hfil : (n0 :: t).filter (fun m => (kwLookup nk m).isNone) =
          n0 :: t.filter (fun m => (kwLookup nk m).isNone) := by
        simp [List.filter, hnk]
      rw [hfil] at h1
      cases args with
      | nil => simp at h2
      | cons a0 args2 =>
        cases i with
        | zero =>
          simp only [List.get?, Option.some.injEq] at h1 h2
          subst h1
          subst h2
          simp [reqVals, hnk, List.zip_cons_cons, kwLookup]
        | succ j =>
          simp only [List.get?] at h1 h2
          have hmem : n ∈ t := by
            have := List.get?_mem h1
            exact List.mem_of_mem_filter this
          have hne : n0 ≠ n := fun h => hnt (h ▸ hmem)
          simp only [reqVals, hnk, List.zip_cons_cons, kwLookup, hne, if_false]
          exact ih args2 nk htnd j n a h1 h2

/-! ## Reconciliation master lemmas -/

theorem checkKw_ok (cmd : Cmd) (na : List Value) (nk : KW)
    (h : ∀ p ∈ nk, (kwLookup cmd.keywords p.1).isSome) :
    checkKw cmd na nk = .ok (na, nk) := by
  unfold checkKw
  have hf : nk.find? (fun p => !(kwLookup cmd.keywords p.1).isSome) =
      Option.none := by
    rw [List.find?_eq_none]
    intro p hp
    simp [h p hp]
  rw [hf]
  cases cmd.has_kwargs <;> simp

/-- Everything `apply` followed by Python's call binding does for a
command with a variadic tail, provided reconciliation can succeed: the
call environment binds every keyword slot to its named value or declared
default, binds required slots to their named values or the consumed bare
tokens in order, and sends every remaining bare token to the tail. -/
theorem apply_bind_var (cmd : Cmd) (req kws : List String)
    (args : List String) (kwargs : KW)
    (hargs : cmd.argnames = req ++ kws)
    (hv : cmd.has_varargs = true)
    (hreq : ∀ n ∈ req, kwLookup cmd.keywords n = Option.none)
    (hkws : ∀ n ∈ kws, (kwLookup cmd.keywords n).isSome)
    (hnd : (req ++ kws).Nodup)
    (hknd : (kwKeys kwargs).Nodup)
    (hkeys : ∀ k ∈ kwKeys kwargs, k ∈ req ++ kws)
    (hle : reqConsumed req kwargs ≤ args.length) :
    ∃ res env, apply cmd args kwargs = .ok res ∧
      bindCall cmd res.1 res.2 = .ok env ∧
      (∀ n ∈ req ++ kws, ∀ v, kwLookup kwargs n = some v →
        kwLookup env.bindings n = some v) ∧
      (∀ n ∈ kws, kwLookup env.bindings n =
        some (namedOrDefault cmd kwargs n)) ∧
      (∀ (i : Nat) (n a : String),
        (req.filter (fun m => (kwLookup kwargs m).isNone)).get? i = some n →
        args.get? i = some a →
        kwLookup env.bindings n = some (.str a)) ∧
      env.varargs = (args.drop (reqConsumed req kwargs)).map .str ∧
      env.kwbag = [] := by
  have hreqnd : req.Nodup := (List.nodup_append.1 hnd).1
  have hkwsnd : kws.Nodup := (List.nodup_append.1 hnd).2.1
  have hdisj : req.Disjoint kws := (List.nodup_append.1 hnd).2.2
  set k := reqConsumed req kwargs with hk
  set na1 := reqVals req args kwargs with hna1
  set nkB := kwEraseList kwargs req with hnkB
  have hlen1 : na1.length = req.length :=
    reqVals_length req args kwargs hreqnd hknd hle
  have hnkBnodup : (kwKeys nkB).Nodup := kwKeys_eraseList_nodup req kwargs hknd
  have hnkBreq : ∀ n ∈ req, kwLookup nkB n = Option.none :=
    fun n hn => kwLookup_eraseList_mem req kwargs n hknd hn
  have hnkBkws : ∀ n, n ∉ req → kwLookup nkB n = kwLookup kwargs n :=
    fun n hn => kwLookup_eraseList_not_mem req kwargs n hn
  have hkeys_nkB : ∀ p ∈ nkB, p.1 ∈ kws := by
    intro p hp
    have hmemkw : p ∈ kwargs := kwEraseList_mem req kwargs p hp
    have hks : p.1 ∈ req ++ kws :=
      hkeys p.1 (List.mem_map_of_mem _ hmemkw)
    have hsome : (kwLookup nkB p.1).isSome :=
      (kwLookup_isSome_iff_mem_keys nkB p.1).2 (List.mem_map_of_mem _ hp)
    rcases List.mem_append.1 hks with h' | h'
    · rw [hnkBreq p.1 h'] at hsome
      simp at hsome
    · exact h'
  have hkeysOf_nkB : ∀ x ∈ kwKeys nkB, x ∈ kws := by
    intro x hx
    rcases List.mem_map.1 hx with ⟨p, hp, hpe⟩
    exact hpe ▸ hkeys_nkB p hp
  have hcheck : ∀ p ∈ nkB, (kwLookup cmd.keywords p.1).isSome :=
    fun p hp => hkws p.1 (hkeys_nkB p hp)
  -- run the required phase
  have h3 := applyLoop_req cmd req hreq kws args [] kwargs
  have h4 := reqStep_ok req args [] kwargs hreqnd hknd hle
  rw [← hk, ← hna1, ← hnkB] at h4
  by_cases hrest : args.drop k = []
  case pos =>
    -- every bare token was consumed by a required slot; the keyword phase
    -- breaks immediately and the named values stay in the keyword map
    have hfv : kwFillV cmd kws [] nkB = ([], nkB) := by
      cases kws <;> rfl
    have happly : apply cmd args kwargs = .ok (na1, nkB) := by
      unfold apply
      rw [hargs, h3, h4]
      simp only
      rw [applyLoop_kws_var cmd hv kws hkws (args.drop k) ([] ++ na1) nkB,
        hrest, hfv]
      simp only [List.nil_append, List.append_nil]
      rw [if_neg (by simp)]
      exact checkKw_ok cmd na1 nkB hcheck
    refine ⟨(na1, nkB), ?_⟩
    have hbpos := bindLoop_pos cmd req na1 [] kws nkB [] hlen1.symm hnkBreq
    rw [List.append_nil] at hbpos
    simp only [List.nil_append] at hbpos
    have hbkw := bindLoop_kw cmd kws hkws nkB (req.zip na1)
    have hsnd : (bindKWSpec cmd kws nkB).2 = [] := by
      rw [bindKWSpec_snd]
      exact kwEraseList_eq_nil nkB kws hnkBnodup hkeysOf_nkB
    rw [hsnd] at hbkw
    simp only [ne_eq, not_true_eq_false, false_and, if_false,
      List.nil_append] at hbkw
    refine ⟨⟨req.zip na1 ++ (bindKWSpec cmd kws nkB).1, [], []⟩,
      happly, ?_, ?_, ?_, ?_, by rw [hrest]; rfl, rfl⟩
    · unfold bindCall
      rw [hargs, hbpos, hbkw]
    · -- named values always win
      intro n hn v hv'
      rcases List.mem_append.1 hn with h' | h'
      · exact kwLookup_append_left _ _ n v
          (zip_reqVals_lookup_named req args kwargs n v hreqnd hle h' hv')
      · have hnreq : n ∉ req := fun hc => hdisj hc h'
        rw [kwLookup_append_right _ _ n
          (fun hc => hnreq (kwKeys_zip_mem req na1 n hc))]
        rw [bindKWSpec_lookup cmd kws nkB hkwsnd n h', hnkBkws n hnreq, hv']
        rfl
    · -- keyword slots: named value or declared default
      intro n hn
      have hnreq : n ∉ req := fun hc => hdisj hc hn
      rw [kwLookup_append_right _ _ n
        (fun hc => hnreq (kwKeys_zip_mem req na1 n hc))]
      rw [bindKWSpec_lookup cmd kws nkB hkwsnd n hn, hnkBkws n hnreq]
      rfl
    · -- required slots take the bare tokens in order
      intro i n a h1 h2
      have hmem : n ∈ req :=
        List.mem_of_mem_filter (List.get?_mem h1)
      exact kwLookup_append_left _ _ n _
        (zip_reqVals_lookup_filled req args kwargs hreqnd i n a h1 h2)
  case neg =>
    -- bare tokens remain: every keyword slot is emitted positionally and
    -- the leftovers become the variadic tail
    have hfv := kwFillV_char cmd kws (args.drop k) nkB hkwsnd hnkBnodup hrest
    set ev := fun n => (kwLookup nkB n).getD
      ((kwLookup cmd.keywords n).getD Value.none) with hev
    have hfv2nil : (kwFillV cmd kws (args.drop k) nkB).2 = [] := by
      rw [hfv.2]
      exact kwEraseList_eq_nil nkB kws hnkBnodup hkeysOf_nkB
    have happly : apply cmd args kwargs =
        .ok ((na1 ++ kws.map ev) ++ (args.drop k).map .str, []) := by
      unfold apply
      rw [hargs, h3, h4]
      simp only
      rw [applyLoop_kws_var cmd hv kws hkws (args.drop k) ([] ++ na1) nkB]
      simp only [List.nil_append, hrest, if_false, hfv.1, hfv2nil, ne_eq,
        not_false_eq_true, if_true, hv]
      rw [checkKw_ok cmd _ [] (by intro p hp; simp at hp)]
    refine ⟨((na1 ++ kws.map ev) ++ (args.drop k).map .str, []), ?_⟩
    have hbpos := bindLoop_pos cmd (req ++ kws) (na1 ++ kws.map ev)
      ((args.drop k).map .str) [] [] []
      (by simp [hlen1]) (by intro n _; rfl)
    rw [List.append_nil] at hbpos
    have hzip : (req ++ kws).zip (na1 ++ kws.map ev) =
        req.zip na1 ++ kws.zip (kws.map ev) :=
      List.zip_append hlen1.symm
    refine ⟨⟨req.zip na1 ++ kws.zip (kws.map ev), (args.drop k).map .str,
      []⟩, happly, ?_, ?_, ?_, ?_, rfl, rfl⟩
    · unfold bindCall
      rw [hargs, hbpos]
      simp only [bindLoop, hv, List.nil_append, hzip]
      simp
    · intro n hn v hv'
      rcases List.mem_append.1 hn with h' | h'
      · exact kwLookup_append_left _ _ n v
          (zip_reqVals_lookup_named req args kwargs n v hreqnd hle h' hv')
      · have hnreq : n ∉ req := fun hc => hdisj hc h'
        rw [kwLookup_append_right _ _ n
          (fun hc => hnreq (kwKeys_zip_mem req na1 n hc))]
        rw [kwLookup_zip_map kws ev n h', hev]
        simp only [hnkBkws n hnreq, hv']
        rfl
    · intro n hn
      have hnreq : n ∉ req := fun hc => hdisj hc hn
      rw [kwLookup_append_right _ _ n
        (fun hc => hnreq (kwKeys_zip_mem req na1 n hc))]
      rw [kwLookup_zip_map kws ev n hn, hev]
      simp only [hnkBkws n hnreq]
      rfl
    · intro i n a h1 h2
      exact kwLookup_append_left _ _ n _
        (zip_reqVals_lookup_filled req args kwargs hreqnd i n a h1 h2)

/-- Everything `apply` followed by Python's call binding does for a
command without a variadic tail, provided reconciliation can succeed:
named values always win their slot, and the bare positional tokens fill,
in order, exactly the slots not yet satisfied by name — first the
remaining required slots, then the remaining keyword slots. -/
theorem apply_bind_novar (cmd : Cmd) (req kws : List String)
    (args : List String) (kwargs : KW)
    (hargs : cmd.argnames = req ++ kws)
    (hv : cmd.has_varargs = false)
    (hreq : ∀ n ∈ req, kwLookup cmd.keywords n = Option.none)
    (hkws : ∀ n ∈ kws, (kwLookup cmd.keywords n).isSome)
    (hnd : (req ++ kws).Nodup)
    (hknd : (kwKeys kwargs).Nodup)
    (hkeys : ∀ k ∈ kwKeys kwargs, k ∈ req ++ kws)
    (hle : reqConsumed req kwargs ≤ args.length)
    (hle2 : args.length ≤ reqConsumed req kwargs +
      (kws.filter (fun m => (kwLookup kwargs m).isNone)).length) :
    ∃ res env, apply cmd args kwargs = .ok res ∧
      bindCall cmd res.1 res.2 = .ok env ∧
      (∀ n ∈ req ++ kws, ∀ v, kwLookup kwargs n = some v →
        kwLookup env.bindings n = some v) ∧
      (∀ (i : Nat) (n a : String),
        ((req.filter (fun m => (kwLookup kwargs m).isNone)) ++
          (kws.filter (fun m => (kwLookup kwargs m).isNone))).get? i = some n →
        args.get? i = some a →
        kwLookup env.bindings n = some (.str a)) ∧
      env.varargs = [] ∧ env.kwbag = [] := by
  have hreqnd : req.Nodup := (List.nodup_append.1 hnd).1
  have hkwsnd : kws.Nodup := (List.nodup_append.1 hnd).2.1
  have hdisj : req.Disjoint kws := (List.nodup_append.1 hnd).2.2
  set k := reqConsumed req kwargs with hk
  set na1 := reqVals req args kwargs with hna1
  set nkB := kwEraseList kwargs req with hnkB
  have hlen1 : na1.length = req.length :=
    reqVals_length req args kwargs hreqnd hknd hle
  have hnkBnodup : (kwKeys nkB).Nodup := kwKeys_eraseList_nodup req kwargs hknd
  have hnkBreq : ∀ n ∈ req, kwLookup nkB n = Option.none :=
    fun n hn => kwLookup_eraseList_mem req kwargs n hknd hn
  have hnkBkws : ∀ n, n ∉ req → kwLookup nkB n = kwLookup kwargs n :=
    fun n hn => kwLookup_eraseList_not_mem req kwargs n hn
  have hkeys_nkB : ∀ p ∈ nkB, p.1 ∈ kws := by
    intro p hp
    have hmemkw : p ∈ kwargs := kwEraseList_mem req kwargs p hp
    have hks : p.1 ∈ req ++ kws :=
      hkeys p.1 (List.mem_map_of_mem _ hmemkw)
    have hsome : (kwLookup nkB p.1).isSome :=
      (kwLookup_isSome_iff_mem_keys nkB p.1).2 (List.mem_map_of_mem _ hp)
    rcases List.mem_append.1 hks with h' | h'
    · rw [hnkBreq p.1 h'] at hsome
      simp at hsome
    · exact h'
  have hkeysOf_nkB : ∀ x ∈ kwKeys nkB, x ∈ kws := by
    intro x hx
    rcases List.mem_map.1 hx with ⟨p, hp, hpe⟩
    exact hpe ▸ hkeys_nkB p hp
  have hfilB : kws.filter (fun m => (kwLookup nkB m).isNone) =
      kws.filter (fun m => (kwLookup kwargs m).isNone) := by
    apply List.filter_congr
    intro m hm
    rw [hnkBkws m (fun hc => hdisj hc hm)]
  set nk1 := (kwFillNV kws (args.drop k) nkB).1 with hnk1
  have hrestnil : (kwFillNV kws (args.drop k) nkB).2 = [] := by
    apply kwFillNV_rest_nil kws (args.drop k) nkB hkwsnd
    rw [hfilB, List.length_drop]
    omega
  have hkeysOf_nk1 : ∀ x ∈ kwKeys nk1, x ∈ kws := by
    intro x hx
    rcases kwKeys_fillNV_mem kws (args.drop k) nkB x hx with h' | h'
    · exact hkeysOf_nkB x h'
    · exact h'
  have hnk1nodup : (kwKeys nk1).Nodup :=
    kwKeys_fillNV_nodup kws (args.drop k) nkB hnkBnodup
  have hcheck : ∀ p ∈ nk1, (kwLookup cmd.keywords p.1).isSome :=
    fun p hp => hkws p.1 (hkeysOf_nk1 p.1 (List.mem_map_of_mem _ hp))
  have h3 := applyLoop_req cmd req hreq kws args [] kwargs
  have h4 := reqStep_ok req args [] kwargs hreqnd hknd hle
  rw [← hk, ← hna1, ← hnkB] at h4
  have happly : apply cmd args kwargs = .ok (na1, nk1) := by
    unfold apply
    rw [hargs, h3, h4]
    simp only
    rw [applyLoop_kws_novar cmd hv kws hkws (args.drop k) ([] ++ na1) nkB]
    simp only [List.nil_append, hrestnil, ← hnk1]
    rw [if_neg (by simp)]
    exact checkKw_ok cmd na1 nk1 hcheck
  refine ⟨(na1, nk1), ?_⟩
  have hposnone : ∀ n ∈ req, kwLookup nk1 n = Option.none := by
    intro n hn
    rw [hnk1, kwFillNV_lookup_not_mem kws (args.drop k) nkB n
      (fun hc => hdisj hn hc)]
    exact hnkBreq n hn
  have hbpos := bindLoop_pos cmd req na1 [] kws nk1 [] hlen1.symm hposnone
  rw [List.append_nil] at hbpos
  simp only [List.nil_append] at hbpos
  have hbkw := bindLoop_kw cmd kws hkws nk1 (req.zip na1)
  have hsnd : (bindKWSpec cmd kws nk1).2 = [] := by
    rw [bindKWSpec_snd]
    exact kwEraseList_eq_nil nk1 kws hnk1nodup hkeysOf_nk1
  rw [hsnd] at hbkw
  simp only [ne_eq, not_true_eq_false, false_and, if_false] at hbkw
  refine ⟨⟨req.zip na1 ++ (bindKWSpec cmd kws nk1).1, [], []⟩,
    happly, ?_, ?_, ?_, rfl, rfl⟩
  · unfold bindCall
    rw [hargs, hbpos, hbkw]
  · -- named values always win
    intro n hn v hv'
    rcases List.mem_append.1 hn with h' | h'
    · exact kwLookup_append_left _ _ n v
        (zip_reqVals_lookup_named req args kwargs n v hreqnd hle h' hv')
    · have hnreq : n ∉ req := fun hc => hdisj hc h'
      rw [kwLookup_append_right _ _ n
        (fun hc => hnreq (kwKeys_zip_mem req na1 n hc))]
      rw [bindKWSpec_lookup cmd kws nk1 hkwsnd n h']
      have : kwLookup nk1 n = some v := by
        rw [hnk1]
        apply kwFillNV_lookup_some
        rw [hnkBkws n hnreq]
        exact hv'
      rw [this]
      rfl
  · -- bare tokens fill the name-unsatisfied slots in order
    intro i n a h1 h2
    set rfil := req.filter (fun m => (kwLookup kwargs m).isNone) with hrfil
    set kfil := kws.filter (fun m => (kwLookup kwargs m).isNone) with hkfil
    have hrl : rfil.length = k := rfl
    by_cases hi : i < rfil.length
    · rw [List.get?_append hi] at h1
      exact kwLookup_append_left _ _ n _
        (zip_reqVals_lookup_filled req args kwargs hreqnd i n a h1 h2)
    · push_neg at hi
      rw [List.get?_append_right hi] at h1
      have hnkws : n ∈ kws :=
        List.mem_of_mem_filter (List.get?_mem h1)
      have hnreq : n ∉ req := fun hc => hdisj hc hnkws
      have h2' : (args.drop k).get? (i - rfil.length) = some a := by
        rw [List.get?_drop]
        rw [hrl]
        have : k + (i - k) = i := by omega
        rw [← hrl, hrl, this]
        exact h2
      have hfill : kwLookup nk1 n = some (.str a) := by
        rw [hnk1]
        apply kwFillNV_fill_order kws (args.drop k) nkB hkwsnd
          (i - rfil.length) n a
        · rw [hfilB]
          exact h1
        · exact h2'
      rw [kwLookup_append_right _ _ n
        (fun hc => hnreq (kwKeys_zip_mem req na1 n hc))]
      rw [bindKWSpec_lookup cmd kws nk1 hkwsnd n hnkws, hfill]
      rfl

/-! ## Tokenizer step lemmas -/

theorem string_mk_data (s : String) : String.mk s.data = s := rfl

theorem classify_longopt (cmd : Cmd) (arg : String) (l : List Char)
    (h : arg.data = '-' :: '-' :: l) (hl : l ≠ []) :
    classify cmd arg = .longopt l := by
  unfold classify
  rw [h]
  rw [if_neg (by simp [hl]), if_neg (by simp)]
  simp

theorem classify_shortopt (cmd : Cmd) (arg : String) (c : Char)
    (l : List Char) (h : arg.data = '-' :: c :: l) (hc : c ≠ '-')
    (hso : cmd.shortopts ≠ []) : classify cmd arg = .shortopt (c :: l) := by
  unfold classify
  rw [h]
  rw [if_neg (by simp [hc]), if_neg (by simp), if_neg (by simp [hc]),
    if_pos (by simp [hso])]
  simp

theorem takeWhile_until_eq (l1 l2 : List Char)
    (h : ∀ c ∈ l1, c ≠ '=') :
    (l1 ++ '=' :: l2).takeWhile (fun c => c ≠ '=') = l1 := by
  induction l1 with
  | nil => simp [List.takeWhile]
  | cons c t ih =>
    have hc : c ≠ '=' := h c (List.mem_cons_self _ _)
    simp only [List.cons_append, List.takeWhile_cons]
    rw [if_pos (by simp [hc]), ih (fun x hx => h x (List.mem_cons_of_mem _ hx))]

theorem dropWhile_until_eq (l1 l2 : List Char)
    (h : ∀ c ∈ l1, c ≠ '=') :
    (l1 ++ '=' :: l2).dropWhile (fun c => c ≠ '=') = '=' :: l2 := by
  induction l1 with
  | nil => simp [List.dropWhile]
  | cons c t ih =>
    have hc : c ≠ '=' := h c (List.mem_cons_self _ _)
    simp only [List.cons_append, List.dropWhile_cons]
    rw [if_pos (by simp [hc]), ih (fun x hx => h x (List.mem_cons_of_mem _ hx))]

set_option maxRecDepth 4000 in
/-- One tokenizer step for `--name=value`: split at the first `=`, strip
quote characters from the value, coerce against the declared default, and
store (in lenient mode a failed coercion stores the raw stripped value). -/
theorem parseArgsLoop_eq_value_step (cmd : Cmd) (test : Bool)
    (name v tok : String) (rest vargs : List String) (kwargs : KW)
    (ddc sdc : Nat)
    (htok : tok.data = '-' :: '-' :: (name.data ++ '=' :: v.data))
    (hnc : ∀ c ∈ name.data, c ≠ '=') :
    parseArgsLoop cmd test (tok :: rest) vargs kwargs ddc sdc =
      match coerceStore test name (.str (stripQuotes v))
          ((kwLookup cmd.keywords name).getD .none) kwargs with
      | .ok kw2 => parseArgsLoop cmd test rest vargs kw2 ddc sdc
      | .error e => .error e := by
  have hcl := classify_longopt cmd tok (name.data ++ '=' :: v.data) htok
    (by simp)
  have hcont : (name.data ++ '=' :: v.data).contains '=' = true := by
    simp [List.contains_eq_any_beq]
  rw [parseArgsLoop, hcl]
  simp only [hcont, if_true, takeWhile_until_eq name.data v.data hnc,
    dropWhile_until_eq name.data v.data hnc, List.drop_succ_cons,
    List.drop_zero, string_mk_data]

set_option maxRecDepth 4000 in
/-- One tokenizer step for a bare `--name` long option whose declared
default is boolean: the negated default is stored and no token is
consumed. -/
theorem parseArgsLoop_bool_flag_step (cmd : Cmd) (test : Bool)
    (name tok : String) (b : Bool) (rest vargs : List String) (kwargs : KW)
    (ddc sdc : Nat)
    (htok : tok.data = '-' :: '-' :: name.data)
    (hne : name.data ≠ [])
    (hnc : name.data.contains '=' = false)
    (hb : kwLookup cmd.keywords name = some (.bool b)) :
    parseArgsLoop cmd test (tok :: rest) vargs kwargs ddc sdc =
      parseArgsLoop cmd test rest vargs
        (kwInsert kwargs name (.bool !b)) ddc sdc := by
  have hcl := classify_longopt cmd tok name.data htok hne
  rw [parseArgsLoop, hcl]
  simp only [hnc, Bool.false_eq_true, if_false, string_mk_data, hb,
    Option.getD_some]

set_option maxRecDepth 4000 in
/-- One tokenizer step for `--name` (no `=`) when the declared default is
not a boolean and the next queue token does not start with `-`: that next
token is consumed as the value and coerced (or stored raw in lenient
mode). -/
theorem parseArgsLoop_long_value_step (cmd : Cmd) (test : Bool)
    (name tok t : String) (rest vargs : List String) (kwargs : KW)
    (ddc sdc : Nat)
    (htok : tok.data = '-' :: '-' :: name.data)
    (hne : name.data ≠ [])
    (hnc : name.data.contains '=' = false)
    (hnb : ∀ b, (kwLookup cmd.keywords name).getD .none ≠ .bool b)
    (ht : startsWithDash t = false) :
    parseArgsLoop cmd test (tok :: t :: rest) vargs kwargs ddc sdc =
      match coerceStore test name (.str t)
          ((kwLookup cmd.keywords name).getD .none) kwargs with
      | .ok kw2 => parseArgsLoop cmd test rest vargs kw2 ddc sdc
      | .error e => .error e := by
  have hcl := classify_longopt cmd tok name.data htok hne
  rw [parseArgsLoop, hcl]
  simp only [hnc, Bool.false_eq_true, if_false, string_mk_data]
  cases hd : (kwLookup cmd.keywords name).getD .none with
  | bool b => exact absurd hd (by simpa using hnb b)
  | str s => simp [ht]
  | int n => simp [ht]
  | none => simp [ht]

/-- Walking a short cluster past a recognized boolean option stores the
negated default and continues with the remaining characters; no value
token can be consumed for it. -/
theorem shortScan_bool_step (cmd : Cmd) (c : Char) (cs : List Char)
    (name : String) (b : Bool) (kw : KW)
    (hsc : shortchars cmd c = some name)
    (hb : kwLookup cmd.keywords name = some (.bool b)) :
    shortScan cmd (c :: cs) kw =
      shortScan cmd cs (kwInsert kw name (.bool !b)) := by
  simp [shortScan, hsc, hb]

theorem shortScan_prefix (cmd : Cmd) (cs : List Char) (c : Char)
    (hpre : ∀ c' ∈ cs, shortchars cmd c' = Option.none ∨
      ∃ n b, shortchars cmd c' = some n ∧
        kwLookup cmd.keywords n = some (.bool b)) :
    ∀ kw : KW, ∃ kw2, shortScan cmd (cs ++ [c]) kw = shortScan cmd [c] kw2
    := by
  induction cs with
  | nil => intro kw; exact ⟨kw, rfl⟩
  | cons c' t ih =>
    intro kw
    rcases hpre c' (List.mem_cons_self _ _) with h | ⟨n, b, hn, hb⟩
    · rcases ih (fun x hx => hpre x (List.mem_cons_of_mem _ hx)) kw with
        ⟨kw2, hkw2⟩
      refine ⟨kw2, ?_⟩
      simp only [List.cons_append, shortScan, h]
      exact hkw2
    · rcases ih (fun x hx => hpre x (List.mem_cons_of_mem _ hx))
        (kwInsert kw n (.bool !b)) with ⟨kw2, hkw2⟩
      refine ⟨kw2, ?_⟩
      simp only [List.cons_append, shortScan, hn, hb]
      exact hkw2


theorem dropWhile_append_of_all (p : Char → Bool) (l1 : List Char)
    (h : ∀ c ∈ l1, p c = true) :
    ∀ l2 : List Char, (l1 ++ l2).dropWhile p = l2.dropWhile p := by
  induction l1 with
  | nil => intro l2; rfl
  | cons c t ih =>
    intro l2
    simp only [List.cons_append, List.dropWhile_cons,
      h c (List.mem_cons_self _ _), if_true]
    exact ih (fun x hx => h x (List.mem_cons_of_mem _ hx)) l2

theorem dropWhile_of_head_false (p : Char → Bool) (l : List Char)
    (c : Char) (h1 : l.head? = some c) (h2 : p c = false) :
    l.dropWhile p = l := by
  cases l with
  | nil => simp at h1
  | cons x t =>
    simp only [List.head?] at h1
    cases h1
    simp [List.dropWhile_cons, h2]

/-- What Python `value.strip('\'"')` computes: with `l` and `r` runs of
quote characters and `m` starting and ending in non-quotes (or empty),
`l ++ m ++ r` strips to exactly `m` — however many quotes sit on either
side, matched or not. -/
theorem stripQuotes_spec (l m r : List Char)
    (hl : ∀ c ∈ l, isQuoteChar c = true)
    (hr : ∀ c ∈ r, isQuoteChar c = true)
    (hm1 : ∀ c, m.head? = some c → isQuoteChar c = false)
    (hm2 : ∀ c, m.getLast? = some c → isQuoteChar c = false) :
    stripQuotes (String.mk (l ++ m ++ r)) = String.mk m := by
  unfold stripQuotes
  simp only [string_mk_data]
  rw [List.append_assoc, dropWhile_append_of_all isQuoteChar l hl]
  cases m with
  | nil =>
    simp only [List.nil_append]
    rw [List.dropWhile_eq_nil_iff.2 (fun c hc => hr c hc)]
    rfl
  | cons c m' =>
    rw [dropWhile_of_head_false isQuoteChar (c :: m' ++ r) c rfl
      (hm1 c rfl)]
    rw [show ((c :: m') ++ r).reverse = r.reverse ++ (c :: m').reverse by
      simp]
    rw [dropWhile_append_of_all isQuoteChar r.reverse
      (fun x hx => hr x (List.mem_reverse.1 hx))]
    have hhead : (c :: m').reverse.head? = (c :: m').getLast? := by
      rw [List.head?_reverse]
    rcases hlast : (c :: m').getLast? with _ | d
    · simp at hlast
    · rw [dropWhile_of_head_false isQuoteChar (c :: m').reverse d
        (by rw [hhead, hlast]) (hm2 d hlast)]
      simp

/-- The `--` marker: the whole remaining queue is appended verbatim to
the positional list and the scan stops. -/
theorem parseArgsLoop_ddash_step (cmd : Cmd) (test : Bool) (tok : String)
    (rest vargs : List String) (kwargs : KW) (sdc : Nat)
    (htok : tok.data = ['-', '-']) :
    parseArgsLoop cmd test (tok :: rest) vargs kwargs 0 sdc =
      .ok (vargs ++ rest, kwargs) := by
  have hcl : classify cmd tok = .ddash := by
    unfold classify
    rw [htok]
    simp
  rw [parseArgsLoop, hcl]
  simp

/-- `Baker.parse` raises `CommandError("No command specified")` whenever
the first argument names no registered command and there is no default,
regardless of lenient/test mode. -/
theorem parse_no_command (b : BakerState) (s a1 : String)
    (rest : List String) (test : Bool)
    (h1 : a1 ≠ "-h") (h2 : a1 ≠ "--help") (h3 : a1 ≠ "help")
    (h4 : findCommand b a1 = Option.none)
    (h5 : b.defaultcommand = Option.none) :
    parse b (s :: a1 :: rest) test =
      (.err (.commandError "No command specified"), s :: a1 :: rest) := by
  unfold parse
  simp [h1, h2, h3, h4, h5]



/-! ## Claim theorems -/

/-- C1: for every command whose descriptor has a variadic tail, declared
keyword parameters (those with a default) are never filled from bare
positional tokens during reconciliation: each such slot receives the
value supplied by an explicit `--name`/`-x` option if one was given and
the declared default otherwise, while every bare positional token left
after filling required slots goes to the variadic tail in order. -/
theorem C1_varargs_keyword_slots (cmd : Cmd) (req kws args : List String)
    (kwargs : KW)
    (hargs : cmd.argnames = req ++ kws)
    (hv : cmd.has_varargs = true)
    (hreq : ∀ n ∈ req, kwLookup cmd.keywords n = Option.none)
    (hkws : ∀ n ∈ kws, (kwLookup cmd.keywords n).isSome)
    (hnd : (req ++ kws).Nodup)
    (hknd : (kwKeys kwargs).Nodup)
    (hkeys : ∀ k ∈ kwKeys kwargs, k ∈ req ++ kws)
    (hle : reqConsumed req kwargs ≤ args.length) :
    ∃ res env, apply cmd args kwargs = .ok res ∧
      bindCall cmd res.1 res.2 = .ok env ∧
      (∀ n ∈ kws, kwLookup env.bindings n =
        some (namedOrDefault cmd kwargs n)) ∧
      env.varargs = (args.drop (reqConsumed req kwargs)).map .str := by
  rcases apply_bind_var cmd req kws args kwargs hargs hv hreq hkws hnd hknd
    hkeys hle with ⟨res, env, h1, h2, _, h4, _, h6, _⟩
  exact ⟨res, env, h1, h2, h4, h6⟩

/-- C1 witness: the spec's example `test(a, b=0, *rest)` applied to bare
tokens `["1","2","3"]` yields `a="1"`, `b=0` (default, untouched),
`rest=("2","3")`. -/
theorem C1_varargs_keyword_slots_witness :
    (cmdVarKw.argnames = ["a"] ++ ["b"] ∧ cmdVarKw.has_varargs = true ∧
      (∀ n ∈ (["a"] : List String), kwLookup cmdVarKw.keywords n =
        Option.none) ∧
      (∀ n ∈ (["b"] : List String), (kwLookup cmdVarKw.keywords n).isSome) ∧
      ((["a"] ++ ["b"] : List String)).Nodup ∧ (kwKeys ([] : KW)).Nodup ∧
      (∀ k ∈ kwKeys ([] : KW), k ∈ ["a"] ++ ["b"]) ∧
      reqConsumed ["a"] [] ≤ (["1", "2", "3"] : List String).length) ∧
    (∃ res env, apply cmdVarKw ["1", "2", "3"] [] = .ok res ∧
      bindCall cmdVarKw res.1 res.2 = .ok env ∧
      (∀ n ∈ (["b"] : List String), kwLookup env.bindings n =
        some (namedOrDefault cmdVarKw [] n)) ∧
      env.varargs = ((["1", "2", "3"] : List String).drop
        (reqConsumed ["a"] [])).map .str) ∧
    apply cmdVarKw ["1", "2", "3"] [] =
      .ok ([.str "1", .int 0, .str "2", .str "3"], []) ∧
    bindCall cmdVarKw [.str "1", .int 0, .str "2", .str "3"] [] =
      .ok ⟨[("a", .str "1"), ("b", .int 0)], [.str "2", .str "3"], []⟩ :=
  ⟨⟨rfl, rfl, by decide, by decide, by decide, by decide, by decide,
    by decide⟩,
   C1_varargs_keyword_slots cmdVarKw ["a"] ["b"] ["1", "2", "3"] [] rfl rfl
     (by decide) (by decide) (by decide) (by decide) (by decide)
     (by decide),
   by decide, by decide⟩

/-- C2 counterexample: for the variadic command `vtest(a, *rest)` and
arguments `["--","x","--"]`, the second `--` is carried through as a
literal positional token and the parse-and-apply pipeline succeeds with
`a="x"`, `rest=("--",)` — it does not fail with any error. -/
theorem C2_second_ddash_succeeds :
    parse bakerVar ["s", "vtest", "--", "x", "--"] false =
      (.ok "s" cmdVarOnly ["x", "--"] [], ["s", "vtest", "--", "x", "--"]) ∧
    apply cmdVarOnly ["x", "--"] [] = .ok ([.str "x", .str "--"], []) ∧
    bindCall cmdVarOnly [.str "x", .str "--"] [] =
      .ok ⟨[("a", .str "x")], [.str "--"], []⟩ :=
  ⟨by decide, by decide, by decide⟩

/-- C2 amended: the first `--` ends option processing — every remaining
token is appended verbatim to the positional list (no classification, no
coercion) and the scan stops — so a later `--` is never seen as a marker
and becomes a literal positional token; the pipeline fails with "too
many arguments" only when the command cannot absorb the extra tokens, as
in the source's double-dash test `test(a, b=0, c=4)` on
`["9","--","10","--","9"]`. -/
theorem C2_ddash_amended :
    (∀ (cmd : Cmd) (test : Bool) (tok : String) (rest vargs : List String)
      (kwargs : KW) (sdc : Nat), tok.data = ['-', '-'] →
      parseArgsLoop cmd test (tok :: rest) vargs kwargs 0 sdc =
        .ok (vargs ++ rest, kwargs)) ∧
    parseArgs cmdTwoKw false ["9", "--", "10", "--", "9"] =
      .ok (["9", "10", "--", "9"], []) ∧
    apply cmdTwoKw ["9", "10", "--", "9"] [] =
      .error (.commandError "Too many arguments to test: 9") :=
  ⟨fun cmd test tok rest vargs kwargs sdc htok =>
    parseArgsLoop_ddash_step cmd test tok rest vargs kwargs sdc htok,
   by decide, by decide⟩

/-- C2 amended, witness at `--` with a trailing literal `--`. -/
theorem C2_ddash_amended_witness :
    (("--" : String).data = ['-', '-']) ∧
    parseArgsLoop cmdPlain false ["--", "z", "--"] [] [] 0 0 =
      .ok ([] ++ ["z", "--"], []) :=
  ⟨by decide,
   C2_ddash_amended.1 cmdPlain false "--" ["z", "--"] [] [] 0 (by decide)⟩

/-- C3 counterexample: `--x=''hello world''` strips all four quote
characters, yielding `hello world` where stripping exactly one matching
pair would leave `'hello world'`. -/
theorem C3_quote_strip_counterexample :
    parseArgs cmdPlain false ["--x=''hello world''"] =
      .ok ([], [("x", .str "hello world")]) ∧
    Value.str "hello world" ≠ Value.str "'hello world'" :=
  ⟨by decide, by decide⟩

/-- C3 amended: a long option of the form `--name=value` splits on the
first `=` and strips every leading and every trailing quote character
(`'` or `"`) from the value — one pair, several pairs, or unmatched
quotes are all removed; `--x='hello world'` still yields
`hello world`. -/
theorem C3_quote_strip_amended :
    (∀ (cmd : Cmd) (test : Bool) (name v tok : String)
      (rest vargs : List String) (kwargs : KW) (ddc sdc : Nat),
      tok.data = '-' :: '-' :: (name.data ++ '=' :: v.data) →
      (∀ c ∈ name.data, c ≠ '=') →
      parseArgsLoop cmd test (tok :: rest) vargs kwargs ddc sdc =
        match coerceStore test name (.str (stripQuotes v))
            ((kwLookup cmd.keywords name).getD .none) kwargs with
        | .ok kw2 => parseArgsLoop cmd test rest vargs kw2 ddc sdc
        | .error e => .error e) ∧
    (∀ (l m r : List Char), (∀ c ∈ l, isQuoteChar c = true) →
      (∀ c ∈ r, isQuoteChar c = true) →
      (∀ c, m.head? = some c → isQuoteChar c = false) →
      (∀ c, m.getLast? = some c → isQuoteChar c = false) →
      stripQuotes (String.mk (l ++ m ++ r)) = String.mk m) ∧
    parseArgs cmdPlain false ["--x='hello world'"] =
      .ok ([], [("x", .str "hello world")]) :=
  ⟨fun cmd test name v tok rest vargs kwargs ddc sdc h1 h2 =>
    parseArgsLoop_eq_value_step cmd test name v tok rest vargs kwargs ddc
      sdc h1 h2,
   fun l m r h1 h2 h3 h4 => stripQuotes_spec l m r h1 h2 h3 h4,
   by decide⟩

/-- C3 amended, witness: the step equation at `--x=''a b''` and the strip
characterization at a single quote pair. -/
theorem C3_quote_strip_amended_witness :
    (("--x=''a b''" : String).data =
      '-' :: '-' :: (("x" : String).data ++ '=' ::
        ("''a b''" : String).data)) ∧
    parseArgsLoop cmdPlain false ["--x=''a b''"] [] [] 0 0 =
      (match coerceStore false "x" (.str (stripQuotes "''a b''"))
          ((kwLookup cmdPlain.keywords "x").getD .none) [] with
        | .ok kw2 => parseArgsLoop cmdPlain false [] [] kw2 0 0
        | .error e => .error e) ∧
    stripQuotes (String.mk (['\''] ++ ['a'] ++ ['\''])) = String.mk ['a'] :=
  ⟨by decide,
   C3_quote_strip_amended.1 cmdPlain false "x" "''a b''" "--x=''a b''" []
     [] [] 0 0 (by decide) (by decide),
   C3_quote_strip_amended.2.1 ['\''] ['a'] ['\'']
     (by decide) (by decide) (by decide) (by decide)⟩



/-- C4 counterexample: in lenient/test mode, the short-option coercion
site does not pass the raw token through — `-n abc` against an `int`
default leaves the keyword map empty instead of storing `"abc"`. -/
theorem C4_short_site_drops_token :
    parseArgs cmdShortN true ["-n", "abc"] = .ok ([], []) ∧
    kwLookup ([] : KW) "n" = Option.none :=
  ⟨by decide, rfl⟩

/-- C4 amended: in lenient/test mode every type-coercion failure is
suppressed; at the two long-option sites (`--name=value`, and `--name`
with a consumed value token) the offending raw string is passed through
uncoerced into the keyword map, while at the short-option site the
failure is suppressed but nothing is stored; other error kinds, e.g.
"No command specified", are still raised in this mode. -/
theorem C4_lenient_mode_amended :
    (∀ (cmd : Cmd) (name v tok : String) (rest vargs : List String)
      (kwargs : KW) (ddc sdc : Nat),
      tok.data = '-' :: '-' :: (name.data ++ '=' :: v.data) →
      (∀ c ∈ name.data, c ≠ '=') →
      totype (.str (stripQuotes v))
        ((kwLookup cmd.keywords name).getD .none) = .error () →
      parseArgsLoop cmd true (tok :: rest) vargs kwargs ddc sdc =
        parseArgsLoop cmd true rest vargs
          (kwInsert kwargs name (.str (stripQuotes v))) ddc sdc) ∧
    (∀ (cmd : Cmd) (name tok t : String) (rest vargs : List String)
      (kwargs : KW) (ddc sdc : Nat),
      tok.data = '-' :: '-' :: name.data → name.data ≠ [] →
      name.data.contains '=' = false →
      (∀ b, (kwLookup cmd.keywords name).getD .none ≠ .bool b) →
      startsWithDash t = false →
      totype (.str t) ((kwLookup cmd.keywords name).getD .none) =
        .error () →
      parseArgsLoop cmd true (tok :: t :: rest) vargs kwargs ddc sdc =
        parseArgsLoop cmd true rest vargs
          (kwInsert kwargs name (.str t)) ddc sdc) ∧
    (∀ (cmd : Cmd) (c : Char) (name : String) (default : Value)
      (tok t : String) (rest vargs : List String) (kwargs : KW)
      (ddc sdc : Nat),
      tok.data = ['-', c] → c ≠ '-' → cmd.shortopts ≠ [] →
      shortchars cmd c = some name →
      kwLookup cmd.keywords name = some default →
      (∀ b, default ≠ .bool b) →
      totype (.str t) default = .error () →
      parseArgsLoop cmd true (tok :: t :: rest) vargs kwargs ddc sdc =
        parseArgsLoop cmd true rest vargs kwargs ddc sdc) ∧
    (∀ (b : BakerState) (s a1 : String) (rest : List String),
      a1 ≠ "-h" → a1 ≠ "--help" → a1 ≠ "help" →
      findCommand b a1 = Option.none → b.defaultcommand = Option.none →
      parse b (s :: a1 :: rest) true =
        (.err (.commandError "No command specified"), s :: a1 :: rest)) := by
  refine ⟨?_, ?_, ?_, ?_⟩
  · intro cmd name v tok rest vargs kwargs ddc sdc h1 h2 htot
    rw [parseArgsLoop_eq_value_step cmd true name v tok rest vargs kwargs
      ddc sdc h1 h2]
    unfold coerceStore
    rw [htot]
    rfl
  · intro cmd name tok t rest vargs kwargs ddc sdc h1 h2 h3 h4 h5 htot
    rw [parseArgsLoop_long_value_step cmd true name tok t rest vargs kwargs
      ddc sdc h1 h2 h3 h4 h5]
    unfold coerceStore
    rw [htot]
    rfl
  · intro cmd c name default tok t rest vargs kwargs ddc sdc h1 h2 h3 h4
      h5 h6 htot
    have hcl := classify_shortopt cmd tok c [] h1 h2 h3
    rw [parseArgsLoop, hcl]
    have hscan : shortScan cmd [c] kwargs = .needsValue name default kwargs
        := by
      cases default with
      | bool bb => exact absurd rfl (h6 bb)
      | str ss => simp [shortScan, h4, h5]
      | int nn => simp [shortScan, h4, h5]
      | none => simp [shortScan, h4, h5]
    simp only [hscan]
    show (match coerceStoreShort true name (.str t) default kwargs with
      | .ok kw3 => parseArgsLoop cmd true rest vargs kw3 ddc sdc
      | .error e => .error e) =
      parseArgsLoop cmd true rest vargs kwargs ddc sdc
    unfold coerceStoreShort
    rw [htot]
    rfl
  · intro b s a1 rest h1 h2 h3 h4 h5
    exact parse_no_command b s a1 rest true h1 h2 h3 h4 h5

/-- C4 amended, witness: all four parts instantiated against
`t(n=0)` with short option `-n` and the empty registry. -/
theorem C4_lenient_mode_amended_witness :
    (totype (.str (stripQuotes "abc"))
      ((kwLookup cmdShortN.keywords "n").getD .none) = .error ()) ∧
    parseArgsLoop cmdShortN true ["--n=abc"] [] [] 0 0 =
      parseArgsLoop cmdShortN true [] []
        (kwInsert [] "n" (.str (stripQuotes "abc"))) 0 0 ∧
    parseArgsLoop cmdShortN true ["--n", "abc"] [] [] 0 0 =
      parseArgsLoop cmdShortN true [] [] (kwInsert [] "n" (.str "abc")) 0 0 ∧
    parseArgsLoop cmdShortN true ["-n", "abc"] [] [] 0 0 =
      parseArgsLoop cmdShortN true [] [] [] 0 0 ∧
    parse bakerNone ["s", "foo"] true =
      (.err (.commandError "No command specified"), ["s", "foo"]) :=
  ⟨by decide,
   C4_lenient_mode_amended.1 cmdShortN "n" "abc" "--n=abc" [] [] [] 0 0
     (by decide) (by decide) (by decide),
   C4_lenient_mode_amended.2.1 cmdShortN "n" "--n" "abc" [] [] [] 0 0
     (by decide) (by decide) (by decide) (by decide) (by decide)
     (by decide),
   C4_lenient_mode_amended.2.2.1 cmdShortN 'n' "n" (.int 0) "-n" "abc" []
     [] [] 0 0 (by decide) (by decide) (by decide) (by decide) (by decide)
     (by decide) (by decide),
   C4_lenient_mode_amended.2.2.2 bakerNone "s" "foo" [] (by decide)
     (by decide) (by decide) (by decide) (by decide)⟩

/-- C5: for every declared keyword parameter whose default is boolean,
the bare `--name` long option and a recognized short-option character
both store the logical negation of the declared default (whatever it is)
and consume no value token — the long step continues on the untouched
queue, and the short scan continues the cluster without ever requesting
a value. -/
theorem C5_bool_flag_negates_default :
    (∀ (cmd : Cmd) (test : Bool) (name tok : String) (b : Bool)
      (rest vargs : List String) (kwargs : KW) (ddc sdc : Nat),
      tok.data = '-' :: '-' :: name.data → name.data ≠ [] →
      name.data.contains '=' = false →
      kwLookup cmd.keywords name = some (.bool b) →
      parseArgsLoop cmd test (tok :: rest) vargs kwargs ddc sdc =
        parseArgsLoop cmd test rest vargs
          (kwInsert kwargs name (.bool !b)) ddc sdc) ∧
    (∀ (cmd : Cmd) (c : Char) (cs : List Char) (name : String) (b : Bool)
      (kw : KW), shortchars cmd c = some name →
      kwLookup cmd.keywords name = some (.bool b) →
      shortScan cmd (c :: cs) kw =
        shortScan cmd cs (kwInsert kw name (.bool !b))) :=
  ⟨fun cmd test name tok b rest vargs kwargs ddc sdc h1 h2 h3 h4 =>
    parseArgsLoop_bool_flag_step cmd test name tok b rest vargs kwargs ddc
      sdc h1 h2 h3 h4,
   fun cmd c cs name b kw h1 h2 => shortScan_bool_step cmd c cs name b kw
     h1 h2⟩

/-- C5 witness at a default of `True`: both forms store `False`, the
negation of the declared default. -/
theorem C5_bool_flag_negates_default_witness :
    (kwLookup cmdBoolT.keywords "flag" = some (.bool true)) ∧
    parseArgsLoop cmdBoolT false ["--flag"] [] [] 0 0 =
      parseArgsLoop cmdBoolT false [] []
        (kwInsert [] "flag" (.bool !true)) 0 0 ∧
    shortScan cmdBoolT ['f'] [] =
      shortScan cmdBoolT [] (kwInsert [] "flag" (.bool !true)) :=
  ⟨by decide,
   C5_bool_flag_negates_default.1 cmdBoolT false "flag" "--flag" true []
     [] [] 0 0 (by decide) (by decide) (by decide) (by decide),
   C5_bool_flag_negates_default.2 cmdBoolT 'f' [] "flag" true []
     (by decide) (by decide)⟩

/-- C6: a value supplied by an explicit named option always wins its
slot, even when a bare positional token appears earlier in the argument
list; bare positional tokens are consumed, in order, only for the slots
not already satisfied by name (all required slots, plus — only without a
variadic tail — the keyword slots). -/
theorem C6_named_beats_positional (cmd : Cmd) (req kws args : List String)
    (kwargs : KW)
    (hargs : cmd.argnames = req ++ kws)
    (hreq : ∀ n ∈ req, kwLookup cmd.keywords n = Option.none)
    (hkws : ∀ n ∈ kws, (kwLookup cmd.keywords n).isSome)
    (hnd : (req ++ kws).Nodup)
    (hknd : (kwKeys kwargs).Nodup)
    (hkeys : ∀ k ∈ kwKeys kwargs, k ∈ req ++ kws)
    (hle : reqConsumed req kwargs ≤ args.length)
    (hle2 : cmd.has_varargs = false → args.length ≤ reqConsumed req kwargs
      + (kws.filter (fun m => (kwLookup kwargs m).isNone)).length) :
    ∃ res env, apply cmd args kwargs = .ok res ∧
      bindCall cmd res.1 res.2 = .ok env ∧
      (∀ n ∈ req ++ kws, ∀ v, kwLookup kwargs n = some v →
        kwLookup env.bindings n = some v) ∧
      (∀ (i : Nat) (n a : String),
        ((req.filter (fun m => (kwLookup kwargs m).isNone)) ++
          (if cmd.has_varargs then [] else
            kws.filter (fun m => (kwLookup kwargs m).isNone))).get? i =
          some n →
        args.get? i = some a →
        kwLookup env.bindings n = some (.str a)) := by
  cases hvv : cmd.has_varargs with
  | true =>
    rcases apply_bind_var cmd req kws args kwargs hargs hvv hreq hkws hnd
      hknd hkeys hle with ⟨res, env, h1, h2, h3, _, h5, _, _⟩
    refine ⟨res, env, h1, h2, h3, ?_⟩
    intro i n a hg ha
    rw [if_pos rfl, List.append_nil] at hg
    exact h5 i n a hg ha
  | false =>
    rcases apply_bind_novar cmd req kws args kwargs hargs hvv hreq hkws hnd
      hknd hkeys hle (hle2 hvv) with ⟨res, env, h1, h2, h3, h4, _, _⟩
    refine ⟨res, env, h1, h2, h3, ?_⟩
    intro i n a hg ha
    rw [if_neg (by simp)] at hg
    exact h4 i n a hg ha

/-- C6 witness: `t6(a=0, b=1)` on `["5", "--a", "7"]` — the positional
token `"5"` appears before the named `--a 7`, yet `a` receives 7 and the
token back-fills `b` instead. -/
theorem C6_named_beats_positional_witness :
    (cmdBothKw.argnames = [] ++ ["a", "b"] ∧
      reqConsumed [] [("a", Value.int 7)] ≤
        (["5"] : List String).length ∧
      (cmdBothKw.has_varargs = false →
        (["5"] : List String).length ≤ reqConsumed [] [("a", Value.int 7)]
          + ((["a", "b"] : List String).filter
            (fun m => (kwLookup [("a", Value.int 7)] m).isNone)).length)) ∧
    (∃ res env, apply cmdBothKw ["5"] [("a", .int 7)] = .ok res ∧
      bindCall cmdBothKw res.1 res.2 = .ok env ∧
      (∀ n ∈ ([] ++ ["a", "b"] : List String), ∀ v,
        kwLookup [("a", Value.int 7)] n = some v →
        kwLookup env.bindings n = some v) ∧
      (∀ (i : Nat) (n a : String),
        ((([] : List String).filter
            (fun m => (kwLookup [("a", Value.int 7)] m).isNone)) ++
          (if cmdBothKw.has_varargs then [] else
            (["a", "b"] : List String).filter
              (fun m => (kwLookup [("a", Value.int 7)] m).isNone))).get? i =
          some n →
        (["5"] : List String).get? i = some a →
        kwLookup env.bindings n = some (.str a))) ∧
    parseArgs cmdBothKw false ["5", "--a", "7"] =
      .ok (["5"], [("a", .int 7)]) ∧
    apply cmdBothKw ["5"] [("a", .int 7)] =
      .ok ([], [("a", .int 7), ("b", .str "5")]) ∧
    bindCall cmdBothKw [] [("a", .int 7), ("b", .str "5")] =
      .ok ⟨[("a", .int 7), ("b", .str "5")], [], []⟩ :=
  ⟨⟨rfl, by decide, fun _ => by decide⟩,
   C6_named_beats_positional cmdBothKw [] ["a", "b"] ["5"]
     [("a", .int 7)] rfl (by decide) (by decide) (by decide) (by decide)
     (by decide) (by decide) (fun _ => by decide),
   by decide, by decide, by decide⟩



/-- C7: against a boolean reference default, `totype` lower-cases the
token and maps exactly `{"true","yes","on","1"}` to true and
`{"false","no","off","0"}` to false; any other token is a coercion
error, never a silent pass-through. -/
theorem C7_bool_coercion (s : String) (b : Bool) :
    (totype (.str s) (.bool b) = .ok (.bool true) ↔
      pyLower s ∈ (["true", "yes", "on", "1"] : List String)) ∧
    (totype (.str s) (.bool b) = .ok (.bool false) ↔
      pyLower s ∉ (["true", "yes", "on", "1"] : List String) ∧
      pyLower s ∈ (["false", "no", "off", "0"] : List String)) ∧
    (totype (.str s) (.bool b) = .error () ↔
      pyLower s ∉ (["true", "yes", "on", "1"] : List String) ∧
      pyLower s ∉ (["false", "no", "off", "0"] : List String)) := by
  by_cases h1 : pyLower s = "true" ∨ pyLower s = "yes" ∨ pyLower s = "on" ∨
    pyLower s = "1"
  · simp [totype, h1, List.mem_cons]
  · by_cases h2 : pyLower s = "false" ∨ pyLower s = "no" ∨
      pyLower s = "off" ∨ pyLower s = "0"
    · simp [totype, h1, h2, List.mem_cons]
    · simp [totype, h1, h2, List.mem_cons]

/-- C7 witness: the mapping at `"Yes"`, `"off"` and `"maybe"`. -/
theorem C7_bool_coercion_witness :
    totype (.str "Yes") (.bool false) = .ok (.bool true) ∧
    totype (.str "off") (.bool true) = .ok (.bool false) ∧
    totype (.str "maybe") (.bool true) = .error () :=
  ⟨(C7_bool_coercion "Yes" false).1.mpr (by decide),
   (C7_bool_coercion "off" true).2.1.mpr (by decide),
   (C7_bool_coercion "maybe" true).2.2.mpr (by decide)⟩

/-- C8: when the final character of a short-option cluster is reached
(every earlier character is an unknown short char or a boolean option)
and it maps to a non-boolean parameter while the token queue is empty,
tokenization fails with the bare `IndexError` from popping the empty
queue — which is a different exception from the structured
`CommandError` carrying the parse-error messages. -/
theorem C8_last_short_char_indexerror (cmd : Cmd) (test : Bool)
    (cs : List Char) (c : Char) (name : String) (default : Value)
    (vargs : List String) (kwargs : KW) (ddc sdc : Nat)
    (hhead : ∀ d, (cs ++ [c]).head? = some d → d ≠ '-')
    (hso : cmd.shortopts ≠ [])
    (hpre : ∀ c' ∈ cs, shortchars cmd c' = Option.none ∨
      ∃ n b, shortchars cmd c' = some n ∧
        kwLookup cmd.keywords n = some (.bool b))
    (hc : shortchars cmd c = some name)
    (hd : kwLookup cmd.keywords name = some default)
    (hnb : ∀ b, default ≠ .bool b) :
    parseArgsLoop cmd test [String.mk ('-' :: (cs ++ [c]))] vargs kwargs
      ddc sdc = .error .indexError ∧
    (∀ msg, PErr.indexError ≠ PErr.commandError msg) := by
  constructor
  · rcases hcc : cs ++ [c] with _ | ⟨d, l'⟩
    · exact absurd hcc (by simp)
    · have hdne : d ≠ '-' := hhead d (by rw [hcc]; rfl)
      have hcl := classify_shortopt cmd (String.mk ('-' :: d :: l'))
        d l' rfl hdne hso
      rw [parseArgsLoop]
      simp only [hcl]
      rw [← hcc]
      rcases shortScan_prefix cmd cs c hpre kwargs with ⟨kw2, hkw2⟩
      have hsingle : shortScan cmd [c] kw2 = .needsValue name default kw2
          := by
        cases default with
        | bool bb => exact absurd rfl (hnb bb)
        | str ss => simp [shortScan, hc, hd]
        | int nn => simp [shortScan, hc, hd]
        | none => simp [shortScan, hc, hd]
      simp only [hkw2, hsingle]
  · intro msg h
    cases h

/-- C8 witness: `-n` as the last token of `t(n=0)`. -/
theorem C8_last_short_char_indexerror_witness :
    (kwLookup cmdShortN.keywords "n" = some (.int 0)) ∧
    parseArgsLoop cmdShortN false [String.mk ('-' :: ([] ++ ['n']))] [] []
      0 0 = .error .indexError :=
  ⟨by decide,
   (C8_last_short_char_indexerror cmdShortN false [] 'n' "n" (.int 0) []
     [] 0 0 (by intro d hd; simp at hd; subst hd; decide) (by decide)
     (by intro x hx; cases hx) (by decide) (by decide)
     (by intro bb h; cases h)).1⟩

/-- C9: a long option `--name` whose name is not a declared keyword, when
the next token exists and does not start with `-`, consumes that token
as its (uncoerced) value into the keyword map — so it is no longer
available as a positional; the unknown name is rejected with
"Unknown option" only later, during reconciliation, and only when the
command has no open keyword bag. -/
theorem C9_unknown_option_deferred :
    (∀ (cmd : Cmd) (test : Bool) (name tok t : String)
      (rest vargs : List String) (kwargs : KW) (ddc sdc : Nat),
      tok.data = '-' :: '-' :: name.data → name.data ≠ [] →
      name.data.contains '=' = false →
      kwLookup cmd.keywords name = Option.none →
      startsWithDash t = false →
      parseArgsLoop cmd test (tok :: t :: rest) vargs kwargs ddc sdc =
        parseArgsLoop cmd test rest vargs
          (kwInsert kwargs name (.str t)) ddc sdc) ∧
    parseArgs cmdPlain false ["--zzz", "vv", "pos"] =
      .ok (["pos"], [("zzz", .str "vv")]) ∧
    apply cmdPlain ["pos"] [("zzz", .str "vv")] =
      .error (.commandError "Unknown option --zzz") ∧
    apply cmdPlainBag ["pos"] [("zzz", .str "vv")] =
      .ok ([.str "pos"], [("zzz", .str "vv")]) := by
  refine ⟨?_, by decide, by decide, by decide⟩
  intro cmd test name tok t rest vargs kwargs ddc sdc htok hne hnc hunk ht
  have hdn : (kwLookup cmd.keywords name).getD .none = .none := by
    rw [hunk]
    rfl
  rw [parseArgsLoop_long_value_step cmd test name tok t rest vargs kwargs
    ddc sdc htok hne hnc (by rw [hdn]; intro b h; cases h) ht]
  rw [hdn]
  rfl

/-- C9 witness: `--zzz vv` with `t(a)`. -/
theorem C9_unknown_option_deferred_witness :
    (kwLookup cmdPlain.keywords "zzz" = Option.none) ∧
    parseArgsLoop cmdPlain false ["--zzz", "vv", "pos"] [] [] 0 0 =
      parseArgsLoop cmdPlain false ["pos"] []
        (kwInsert [] "zzz" (.str "vv")) 0 0 :=
  ⟨rfl,
   C9_unknown_option_deferred.1 cmdPlain false "zzz" "--zzz" "vv" ["pos"]
     [] [] 0 0 (by decide) (by decide) (by decide) (by decide)
     (by decide)⟩

/-- C10 counterexample: the empty argument list has length < 2 and a
default command is registered, yet `parse` hits `IndexError` at
`scriptname = argv[0]` before the append ever runs, and the list content
stays `[]` rather than gaining the default command's name. -/
theorem C10_empty_argv_not_mutated :
    parse bakerWithDefault [] false = (.err .indexError, []) ∧
    bakerWithDefault.defaultcommand = some cmdPlain ∧
    (List.length ([] : List String) < 2) ∧
    ¬(([] : List String) = [] ++ [cmdPlain.name]) :=
  ⟨rfl, rfl, by decide, by decide⟩

/-- C10 amended: `parse` appends the default command's name to the
caller's list exactly when the list has length 1 (just the script name)
and a default command is registered; every other input — length ≥ 2, no
default registered, or the empty list (which raises `IndexError` before
any mutation) — leaves the caller's list contents unchanged.
`parse_args` only ever receives the slice copy `argv[2:]`/`argv[1:]`. -/
theorem C10_parse_mutation_amended (b : BakerState) (argv : List String)
    (test : Bool) :
    (∀ s dc, argv = [s] → b.defaultcommand = some dc →
      (parse b argv test).2 = argv ++ [dc.name]) ∧
    (2 ≤ argv.length → (parse b argv test).2 = argv) ∧
    (b.defaultcommand = Option.none → (parse b argv test).2 = argv) ∧
    (argv = [] → (parse b argv test).2 = []) := by
  refine ⟨?_, ?_, ?_, ?_⟩
  · intro s dc he hdc
    subst he
    simp [parse, hdc]
  · intro hlen
    cases argv with
    | nil => simp at hlen
    | cons s t =>
      cases t with
      | nil => simp at hlen
      | cons a r =>
        have h2 : ¬ ((s :: a :: r) : List String).length < 2 := by
          simp only [List.length_cons]
          omega
        cases hdc : b.defaultcommand with
        | none => simp [parse, hdc]
        | some dc => simp [parse, hdc, h2]
  · intro hdc
    cases argv with
    | nil => rfl
    | cons s t => simp [parse, hdc]
  · intro he
    subst he
    rfl

/-- C10 amended, witness: length 1 with a default appends the name;
length 2 leaves the list unchanged. -/
theorem C10_parse_mutation_amended_witness :
    (parse bakerWithDefault ["s"] false).2 = ["s"] ++ [cmdPlain.name] ∧
    (parse bakerWithDefault ["s", "x"] false).2 = ["s", "x"] :=
  ⟨(C10_parse_mutation_amended bakerWithDefault ["s"] false).1 "s" cmdPlain
     rfl rfl,
   (C10_parse_mutation_amended bakerWithDefault ["s", "x"] false).2.1
     (by decide)⟩


end Baker
